import Mathlib

/-!
Verification of the RDST multivariate same-length core
(`convst/transformers/_multivariate_same_length.py`).

Numbers: the Python code computes over float64; we embed values in `ℚ`
(exact arithmetic).  The square root inside z-normalisation has no exact
rational counterpart, so every definition that needs it is parametrised by a
function `sq : ℚ → ℚ` standing for the floating-point square root; no theorem
below depends on its values.  The dilation sampler works with `log2`/`2**u`,
which we embed with real numbers (`Real.logb`, `Real.rpow`).

Randomness: every call of `numpy.random.choice` / `uniform` / `random` is
modelled by an explicit oracle argument (the drawn value is an input).  The
theorems quantify over all oracle values, hence over all possible draws.

Helpers imported from `convst.transformers._commons` (`get_subsequence`,
`compute_shapelet_dist_vector`, `generate_strides_2D`,
`apply_one_shapelet_one_sample_multivariate`, `_combinations_1d`,
`prime_up_to`) are not part of the sources under verification; they are
modelled from the specification text, and each such definition is marked
`Modelled from the spec`.
-/

namespace Convst

/-- The `1e-8` guard added to the standard deviation before dividing. -/
def eps : ℚ := 1 / 100000000

/-- Arithmetic mean of a list (0 for the empty list, as in numpy's limit use). -/
def listMean (l : List ℚ) : ℚ := l.sum / l.length

/-- Population variance (`ddof = 0`) of a list. -/
def listVar (l : List ℚ) : ℚ :=
  ((l.map (fun x => (x - listMean l) * (x - listMean l))).sum) / l.length

/-- Modelled from the spec: z-normalisation `(v - mean(v)) / (std(v) + 1e-8)`
used by `get_subsequence` and by the Applier's in-place window normalisation.
`sq` models the floating-point square root (std = sq(variance)). -/
def znorm (sq : ℚ → ℚ) (v : List ℚ) : List ℚ :=
  v.map (fun x => (x - listMean v) / (sq (listVar v) + eps))

/-- Modelled from the spec: `get_subsequence` from `_commons` — extract the
length-`L` subsequence of channel `x` anchored at `index` with stride `d`,
wrapping modulo the series length when `phase` is set, and z-normalising the
result when `norm` is set. -/
def get_subsequence (sq : ℚ → ℚ) (x : List ℚ) (index L d : ℕ)
    (norm : Bool) (phase : Bool) : List ℚ :=
  let raw := (List.range L).map (fun j =>
    if phase then x.getD ((index + j * d) % x.length) 0 else x.getD (index + j * d) 0)
  if norm then znorm sq raw else raw

/-- Number of sliding-window positions for windows of length `L` at dilation
`d` over a series of `n_t` timestamps (`n_t` itself under phase invariance). -/
def numPos (n_t L d : ℕ) (phase : Bool) : ℕ :=
  if phase then n_t else n_t - (L - 1) * d

/-- Modelled from the spec: `generate_strides_2D` from `_commons` — the
per-channel sliding-window view of one sample: entry `(c, p, j)` is
`x[c][p + j*d]` (modulo the series length under phase invariance).  Per spec
§4.3/§5 each call produces a fresh windows buffer owned by one
(sample, parameter-group) unit. -/
def generate_strides_2D (x : List (List ℚ)) (L d : ℕ) (phase : Bool) :
    List (List (List ℚ)) :=
  x.map (fun chan =>
    (List.range (numPos chan.length L d phase)).map (fun p =>
      (List.range L).map (fun j =>
        if phase then chan.getD ((p + j * d) % chan.length) 0 else chan.getD (p + j * d) 0)))

/-- Modelled from the spec: `compute_shapelet_dist_vector` from `_commons` —
the distance profile of a single-channel shapelet value vector `v` against
series `x` (the window at each position is z-normalised first when `norm`). -/
def compute_shapelet_dist_vector (sq : ℚ → ℚ) (dist : List ℚ → List ℚ → ℚ)
    (x : List ℚ) (v : List ℚ) (L d : ℕ) (norm : Bool) (phase : Bool) : List ℚ :=
  (List.range (numPos x.length L d phase)).map (fun p =>
    let w := (List.range L).map (fun j =>
      if phase then x.getD ((p + j * d) % x.length) 0 else x.getD (p + j * d) 0)
    dist v (if norm then znorm sq w else w))

/-- Minimum of a list of rationals (0 for the empty list). -/
def qListMin : List ℚ → ℚ
  | [] => 0
  | h :: t => t.foldl min h

/-- The multichannel distance profile: position `p` accumulates
`dist(values[c], window[c][p])` over the shapelet's channels.  `wins` is the
channel-selected stride view, `vals` the per-channel value rows. -/
def distProfile (dist : List ℚ → List ℚ → ℚ) (wins : List (List (List ℚ)))
    (vals : List (List ℚ)) : List ℚ :=
  (List.range ((wins.headD []).length)).map (fun p =>
    ((List.range vals.length).map (fun c =>
      dist (vals.getD c []) ((wins.getD c []).getD p []))).sum)

/-- Modelled from the spec: `apply_one_shapelet_one_sample_multivariate` from
`_commons` — the three features extracted from the distance profile:
its minimum, the first position attaining that minimum, and the count of
positions strictly below the threshold. -/
def apply_one_shapelet_one_sample_multivariate (dist : List ℚ → List ℚ → ℚ)
    (wins : List (List (List ℚ))) (vals : List (List ℚ)) (θ : ℚ) : List ℚ :=
  let prof := distProfile dist wins vals
  [qListMin prof, (prof.indexOf (qListMin prof) : ℕ), ((prof.filter (fun v => v < θ)).length : ℕ)]

/-- Modelled from the spec: `_combinations_1d` from `_commons` — the unique
`(length, dilation)` pairs occurring in the shapelet set, in order of first
occurrence. -/
def dedupFirst (l : List (ℕ × ℕ)) : List (ℕ × ℕ) :=
  l.foldl (fun acc p => if p ∈ acc then acc else acc ++ [p]) []

/-- The parameter groups `params_shp` of the Applier. -/
def combinations_1d (ls ds : List ℕ) : List (ℕ × ℕ) :=
  dedupFirst (ls.zip ds)

/-- The finalized shapelet set: the 7-tuple returned by the Generator and
consumed by the Applier (`values, lengths, dilations, threshold, normalize,
n_channels, channel_ids`). -/
structure MShapelets where
  values : List ℚ
  lengths : List ℕ
  dilations : List ℕ
  threshold : List ℚ
  normalize : List Bool
  n_channels : List ℕ
  channel_ids : List ℕ

/-- `a1` of the Applier: offset of shapelet `i` into the flat `values`
buffer, the prefix sum of `n_channels * lengths` (original shapelet order). -/
def offV (S : MShapelets) (i : ℕ) : ℕ :=
  ((List.range i).map (fun j => S.n_channels.getD j 0 * S.lengths.getD j 0)).sum

/-- `a2` of the Applier: offset of shapelet `i` into `channel_ids`, the
prefix sum of `n_channels`. -/
def offC (S : MShapelets) (i : ℕ) : ℕ :=
  ((List.range i).map (fun j => S.n_channels.getD j 0)).sum

/-- `values[a1[i]:a1[i+1]].reshape(n_channels[i], lengths[i])`: the
per-channel value rows of shapelet `i`. -/
def valsOf (S : MShapelets) (i : ℕ) : List (List ℚ) :=
  (List.range (S.n_channels.getD i 0)).map (fun r =>
    ((S.values.drop (offV S i + r * S.lengths.getD i 0)).take (S.lengths.getD i 0)))

/-- `channel_ids[a2[i]:a2[i+1]]`: the channels of shapelet `i`. -/
def chansOf (S : MShapelets) (i : ℕ) : List ℕ :=
  (S.channel_ids.drop (offC S i)).take (S.n_channels.getD i 0)

/-- `X_new[i_sample, 3*i : 3*i+3] = f`: write the three features of shapelet
`i` into its fixed output columns. -/
def write3 (row : List ℚ) (i : ℕ) (f : List ℚ) : List ℚ :=
  ((row.set (3 * i) (f.getD 0 0)).set (3 * i + 1) (f.getD 1 0)).set (3 * i + 2) (f.getD 2 0)

/-- `where((lengths == _length) & (dilations == _dilation))[0]`: the original
indices of the shapelets in parameter group `p` (ascending). -/
def groupIdx (S : MShapelets) (p : ℕ × ℕ) : List ℕ :=
  (List.range S.lengths.length).filter
    (fun i => (S.lengths.getD i 0 == p.1) && (S.dilations.getD i 0 == p.2))

/-- The features of shapelet `i` computed inside group `p`'s unit of the
Applier: against the group's raw stride view when `useNorm` is false, against
the per-window z-normalised view when `useNorm` is true (the latter is what
the in-place normalisation of the group's local strides buffer produces). -/
def groupFeats (dist : List ℚ → List ℚ → ℚ) (sq : ℚ → ℚ) (phase : Bool)
    (sample : List (List ℚ)) (S : MShapelets) (p : ℕ × ℕ) (useNorm : Bool)
    (i : ℕ) : List ℚ :=
  let strides0 := generate_strides_2D sample p.1 p.2 phase
  let strides := if useNorm then strides0.map (fun chanW => chanW.map (znorm sq))
    else strides0
  apply_one_shapelet_one_sample_multivariate dist
    ((chansOf S i).map (fun c => strides.getD c []))
    (valsOf S i) (S.threshold.getD i 0)

/-- One (sample, parameter-group) unit of the Applier: build the stride view
once, apply the group's non-normalized shapelets against it, z-normalise every
window (the code does this in place on the group's local buffer), then apply
the group's normalized shapelets.  Features of shapelet `i` go to columns
`3*i .. 3*i+2` of `row`. -/
def applyGroup (dist : List ℚ → List ℚ → ℚ) (sq : ℚ → ℚ) (phase : Bool)
    (sample : List (List ℚ)) (S : MShapelets) (row : List ℚ) (p : ℕ × ℕ) : List ℚ :=
  ((groupIdx S p).filter (fun i => S.normalize.getD i false)).foldl
    (fun r i => write3 r i (groupFeats dist sq phase sample S p true i))
    (((groupIdx S p).filter (fun i => !(S.normalize.getD i false))).foldl
      (fun r i => write3 r i (groupFeats dist sq phase sample S p false i)) row)

/-- `M_SL_apply_all_shapelets`: transform every sample into its
`3 * n_shapelets` feature row, grouping shapelets by unique
`(length, dilation)` pair so the stride view is built once per group. -/
def M_SL_apply_all_shapelets (dist : List ℚ → List ℚ → ℚ) (sq : ℚ → ℚ)
    (phase : Bool) (X : List (List (List ℚ))) (S : MShapelets) : List (List ℚ) :=
  X.map (fun sample =>
    (combinations_1d S.lengths S.dilations).foldl
      (applyGroup dist sq phase sample S)
      (List.replicate (3 * S.lengths.length) 0))

/-- Reference per-shapelet semantics (used to state claim C3): the three
features of shapelet `i` on one sample, computed directly from that
shapelet's own parameters — its own stride view, z-normalised when its
`normalize` flag is set. -/
def shapeletFeatures (dist : List ℚ → List ℚ → ℚ) (sq : ℚ → ℚ) (phase : Bool)
    (sample : List (List ℚ)) (S : MShapelets) (i : ℕ) : List ℚ :=
  let strides0 := generate_strides_2D sample (S.lengths.getD i 0) (S.dilations.getD i 0) phase
  let strides := if S.normalize.getD i false
    then strides0.map (fun chanW => chanW.map (znorm sq)) else strides0
  apply_one_shapelet_one_sample_multivariate dist
    ((chansOf S i).map (fun c => strides.getD c []))
    (valsOf S i) (S.threshold.getD i 0)

/-! ### Shapelet parameter sampler (`M_SL_init_random_shapelet_params`)

The sampler's float expressions are embedded over the reals.  The random
draw `u ~ Uniform(0, upper_bounds[i])` is an explicit argument. -/

/-- `upper_bounds[i] = log2(floor_divide(n_timestamps - 1, lengths[i] - 1))`:
the natural division happens first, then the (real) base-2 logarithm. -/
noncomputable def upper_bound (n_t L : ℕ) : ℝ :=
  Real.logb 2 (((n_t - 1) / (L - 1) : ℕ) : ℝ)

/-- Dilation under the log-uniform scheme: `floor(2 ** u)` for a draw
`u ~ Uniform(0, upper_bounds[i])`. -/
noncomputable def logUniformDil (u : ℝ) : ℤ := ⌊(2 : ℝ) ^ u⌋

/-- Modelled from the spec: membership of `d` in
`primes[primes <= int64(2 ** upper_bounds[i])]`, the support of the
prime-scheme dilation draw (`prime_up_to` from `_commons` supplies the primes;
`int64` truncates the positive float bound, i.e. takes its floor). -/
def primeSchemeDil (n_t L d : ℕ) : Prop :=
  Nat.Prime d ∧ (d : ℤ) ≤ ⌊(2 : ℝ) ^ upper_bound n_t L⌋

/-- The dilation bound asserted by the spec's invariant:
`2 ^ floor(log2((n_timestamps-1)/(L-1)))`. -/
noncomputable def specDilBound (n_t L : ℕ) : ℝ :=
  (2 : ℝ) ^ (⌊upper_bound n_t L⌋ : ℤ)

/-- `max(shapelet_sizes)`. -/
def natListMax (l : List ℕ) : ℕ := l.foldr max 0

/-- Modelled from the spec: the scalar-configuration validation the wrapper
performs before generation starts (§7): `shapelet_sizes` non-empty, every
size at least 2 (so `lengths - 1` never divides by zero in the dilation
bound), and `max_channels` at most the number of available channels. -/
def M_config_ok (shapelet_sizes : List ℕ) (n_features max_channels : ℕ) : Bool :=
  !shapelet_sizes.isEmpty
    && shapelet_sizes.all (fun s => 2 ≤ s)
    && (max_channels ≤ n_features)

/-! ### Shapelet generator (`M_SL_generate_shapelet`)

State and oracle.  The generator's per-shapelet random draws are provided by
an oracle `C : ℕ → GenChoice` indexed by the original shapelet index:
`chans` is the `choice(arange(n_features), nc, replace=False)` draw,
`anchor` the `(id_sample, index)` pick from the eligible positions, and
`thr` the `uniform(percentile(x_dist, p_min), percentile(x_dist, p_max))`
threshold draw (the distance vector only feeds this draw, so the drawn value
subsumes it). -/

/-- Per-shapelet random draws of the Generator. -/
structure GenChoice where
  chans : List ℕ
  anchor : ℕ × ℕ
  thr : ℚ

/-- The self-similarity mask, indexed exactly like
`mask_sampling[norm, i_d, sample, channel, time]`. -/
def Mask : Type := Bool → ℕ → ℕ → ℕ → ℕ → Bool

/-- Mutable state threaded through the generation loop: the sampling mask,
the flat `values`/`channel_ids` buffers filled so far (`values[:a1]`,
`channel_ids[:a2]`), the threshold array, and `mask_return`. -/
structure GenState where
  mask : Mask
  valuesAcc : List ℚ
  chanAcc : List ℕ
  thresholdArr : ℕ → ℚ
  ret : ℕ → Bool

/-- Set one mask cell to `False`. -/
def maskSet (m : Mask) (nr0 : Bool) (id0 s0 c0 t0 : ℕ) : Mask :=
  fun nr id s c t =>
    if nr = nr0 ∧ id = id0 ∧ s = s0 ∧ c = c0 ∧ t = t0 then false else m nr id s c t

/-- `(index + j*dilation) % n_timestamps`. -/
def fwdIdx (t0 j d n_t : ℕ) : ℕ := (t0 + j * d) % n_t

/-- `(index - j*dilation) % n_timestamps` with Python's nonnegative modulo. -/
def bwdIdx (t0 j d n_t : ℕ) : ℕ := (((t0 : ℤ) - (j : ℤ) * (d : ℤ)) % (n_t : ℤ)).toNat

/-- `alpha_size = _length - int64(max(1, (1-alpha)*min_l))`, clamped to 0 for
`range` like Python's `range` over a negative count. -/
def alphaSizeOf (L minL : ℕ) (alpha : ℚ) : ℕ :=
  ((L : ℤ) - max 1 ⌊(1 - alpha) * (minL : ℚ)⌋).toNat

/-- The mask update after placing one shapelet (source lines 209-222): for
each selected channel and each of the `alpha_size` offsets `j`, mark the
backward then the forward dilation-strided position of the anchor sample
ineligible in this `(normalize, dilation)` slice. -/
def maskUpdate (m : Mask) (nrm : Bool) (i_d s0 : ℕ) (chans : List ℕ) (nc : ℕ)
    (aSz : ℕ) (t0 d n_t : ℕ) : Mask :=
  (List.range nc).foldl (fun acc k =>
    (List.range aSz).foldl (fun acc2 j =>
      maskSet (maskSet acc2 nrm i_d s0 (chans.getD k 0) (bwdIdx t0 j d n_t))
        nrm i_d s0 (chans.getD k 0) (fwdIdx t0 j d n_t)) acc) m

/-- The channels drawn for shapelet `i` (`_channel_ids`, exactly
`n_channels[i]` entries of the oracle draw). -/
def stepChans (n_channels : List ℕ) (C : ℕ → GenChoice) (i : ℕ) : List ℕ :=
  (List.range (n_channels.getD i 0)).map (fun k => ((C i).chans).getD k 0)

/-- The eligibility test of source lines 188-192: does some `(sample, t)`
with `t < d_shape` have at least `n_channels * alpha` still-eligible entries
of `mask_dil` summed over the drawn channels? -/
def stepKept (phase : Bool) (n_t : ℕ) (alpha : ℚ) (X : List (List (List ℚ)))
    (lengths dilations : List ℕ) (normalize : List Bool) (n_channels : List ℕ)
    (C : ℕ → GenChoice) (i_d : ℕ) (st : GenState) (i : ℕ) : Bool :=
  (List.range X.length).any (fun s =>
    (List.range (numPos n_t (lengths.getD i 0) (dilations.getD i 0) phase)).any (fun t =>
      decide ((n_channels.getD i 0 : ℚ) * alpha ≤
        ((stepChans n_channels C i).map (fun c =>
          if st.mask (normalize.getD i false) i_d s c t then (1 : ℚ) else 0)).sum)))

/-- `_values` for shapelet `i`: its per-channel subsequences at the anchor,
concatenated (source lines 224-238). -/
def stepVals (sq : ℚ → ℚ) (phase : Bool) (X : List (List (List ℚ)))
    (lengths dilations : List ℕ) (normalize : List Bool) (n_channels : List ℕ)
    (C : ℕ → GenChoice) (i : ℕ) : List ℚ :=
  (List.range (n_channels.getD i 0)).flatMap (fun k =>
    get_subsequence sq ((X.getD ((C i).anchor.1) []).getD ((stepChans n_channels C i).getD k 0) [])
      ((C i).anchor.2) (lengths.getD i 0) (dilations.getD i 0)
      (normalize.getD i false) phase)

/-- One iteration of the inner generation loop (one shapelet `i` inside the
dilation group `i_d` whose minimum length is `minL`).  Mirrors source lines
169-255: compute `d_shape`, draw the channels, test eligibility of
`mask_dil[:, channels, :d_shape]`, and either place the shapelet (update the
mask, extract and append its values and channels, set its threshold) or mark
it dropped. -/
def genStep (sq : ℚ → ℚ) (phase : Bool) (n_t : ℕ) (alpha : ℚ)
    (X : List (List (List ℚ)))
    (lengths dilations : List ℕ) (normalize : List Bool) (n_channels : List ℕ)
    (C : ℕ → GenChoice) (i_d minL : ℕ) (st : GenState) (i : ℕ) : GenState :=
  if stepKept phase n_t alpha X lengths dilations normalize n_channels C i_d st i then
    { mask := maskUpdate st.mask (normalize.getD i false) i_d ((C i).anchor.1)
        (stepChans n_channels C i) (n_channels.getD i 0)
        (alphaSizeOf (lengths.getD i 0) minL alpha)
        ((C i).anchor.2) (dilations.getD i 0) n_t
      valuesAcc := st.valuesAcc ++
        stepVals sq phase X lengths dilations normalize n_channels C i
      chanAcc := st.chanAcc ++ stepChans n_channels C i
      thresholdArr := fun j => if j = i then (C i).thr else st.thresholdArr j
      ret := st.ret }
  else
    { st with ret := fun j => if j = i then false else st.ret j }

/-- `unique(dilations)`: the distinct dilation values, ascending (numpy's
`unique` sorts). -/
def uniqueDil (dils : List ℕ) : List ℕ :=
  (List.range (dils.foldr max 0 + 1)).filter (fun d => dils.contains d)

/-- `where(dilations == unique_dil[i_d])[0]`: original indices of the
shapelets with dilation `d`, ascending. -/
def idsWithDil (dils : List ℕ) (n d : ℕ) : List ℕ :=
  (List.range n).filter (fun i => dils.getD i 0 == d)

/-- Minimum of a list of naturals (`min(lengths[id_shps])`; 0 if empty —
never hit, every processed group is non-empty). -/
def natListMin : List ℕ → ℕ
  | [] => 0
  | h :: t => t.foldl min h

/-- The all-eligible, nothing-written, nothing-dropped initial state. -/
def genInit : GenState :=
  { mask := fun _ _ _ _ _ => true
    valuesAcc := []
    chanAcc := []
    thresholdArr := fun _ => 0
    ret := fun _ => true }

/-- The full generation loop (source lines 165-255): for each distinct
dilation (ascending, with its index `i_d` into `unique_dil`), process the
shapelets of that dilation in original order.  The parallel `prange` is
embedded sequentially. -/
def genLoop (sq : ℚ → ℚ) (phase : Bool) (n_t : ℕ) (alpha : ℚ)
    (X : List (List (List ℚ)))
    (lengths dilations : List ℕ) (normalize : List Bool) (n_channels : List ℕ)
    (C : ℕ → GenChoice) : GenState :=
  (uniqueDil dilations).enum.foldl (fun st pr =>
    let ids := idsWithDil dilations lengths.length pr.2
    ids.foldl
      (genStep sq phase n_t alpha X lengths dilations normalize n_channels C
        pr.1 (natListMin (ids.map (fun i => lengths.getD i 0)))) st) genInit

/-- `(range n).filter ret`: the retained original indices, ascending —
the indices selected by boolean-mask indexing with `mask_return`. -/
def retFilter (ret : ℕ → Bool) (n : ℕ) : List ℕ :=
  (List.range n).filter ret

/-- `M_SL_generate_shapelet`: run the generation loop over the sampler
outputs (`lengths`, `dilations`, `normalize`, `n_channels`) and return the
compacted 7-tuple: `values[:a1]`, the five parameter arrays boolean-masked by
`mask_return` (original order), and `channel_ids[:a2]`.  `n_t` is
`X.shape[2]`. -/
def M_SL_generate_shapelet (sq : ℚ → ℚ) (phase : Bool) (n_t : ℕ) (alpha : ℚ)
    (X : List (List (List ℚ)))
    (lengths dilations : List ℕ) (normalize : List Bool) (n_channels : List ℕ)
    (C : ℕ → GenChoice) : MShapelets :=
  let n := lengths.length
  let fin := genLoop sq phase n_t alpha X lengths dilations normalize n_channels C
  { values := fin.valuesAcc
    lengths := (retFilter fin.ret n).map (fun i => lengths.getD i 0)
    dilations := (retFilter fin.ret n).map (fun i => dilations.getD i 0)
    threshold := (retFilter fin.ret n).map (fun i => fin.thresholdArr i)
    normalize := (retFilter fin.ret n).map (fun i => normalize.getD i false)
    n_channels := (retFilter fin.ret n).map (fun i => n_channels.getD i 0)
    channel_ids := fin.chanAcc }

/-- The list of shapelet indices in the order the generation loop processes
them: dilation groups in ascending dilation order, original index order
inside a group. -/
def allProcessed (dilations : List ℕ) (n : ℕ) : List ℕ :=
  (uniqueDil dilations).flatMap (idsWithDil dilations n)

/-- The generation loop flattened into a single schedule of
`(i_d, min_l, shapelet index)` triples. -/
def genSchedule (dilations lengths : List ℕ) : List (ℕ × ℕ × ℕ) :=
  (uniqueDil dilations).enum.flatMap (fun pr =>
    (idsWithDil dilations lengths.length pr.2).map (fun i =>
      (pr.1,
       natListMin ((idsWithDil dilations lengths.length pr.2).map
         (fun j => lengths.getD j 0)), i)))

/-- Folding the generation step over a schedule of
`(i_d, min_l, shapelet index)` triples. -/
def genFold (sq : ℚ → ℚ) (phase : Bool) (n_t : ℕ) (alpha : ℚ)
    (X : List (List (List ℚ)))
    (lengths dilations : List ℕ) (normalize : List Bool) (n_channels : List ℕ)
    (C : ℕ → GenChoice) (sch : List (ℕ × ℕ × ℕ)) (st : GenState) : GenState :=
  sch.foldl (fun s t =>
    genStep sq phase n_t alpha X lengths dilations normalize n_channels C
      t.1 t.2.1 s t.2.2) st

/-! ## Concrete fixtures used by witnesses and counterexamples -/

/-- The empty (zero-shapelet) finalized set. -/
def emptyShapelets : MShapelets := ⟨[], [], [], [], [], [], []⟩

/-- A one-shapelet set: length 1, dilation 1, channel 0, no normalization. -/
def oneShapelet : MShapelets := ⟨[5], [1], [1], [0], [false], [1], [0]⟩

/-- A trivial distance oracle. -/
def dist0 : List ℚ → List ℚ → ℚ := fun _ _ => 0

/-- A trivial square-root oracle. -/
def sq0 : ℚ → ℚ := fun _ => 0

/-- An oracle that always picks channel 0 and anchor `(0, 0)`. -/
def choice0 : ℕ → GenChoice := fun _ => ⟨[0], (0, 0), 0⟩

/-! ## Lemmas -/

lemma write3_length (row : List ℚ) (i : ℕ) (f : List ℚ) :
    (write3 row i f).length = row.length := by
  simp [write3]

lemma write3_getD_ne (row : List ℚ) (i : ℕ) (f : List ℚ) (j : ℕ)
    (h0 : j ≠ 3 * i) (h1 : j ≠ 3 * i + 1) (h2 : j ≠ 3 * i + 2) :
    (write3 row i f).getD j 0 = row.getD j 0 := by
  simp [write3, List.getD_eq_getElem?_getD, List.getElem?_set_ne (Ne.symm h0),
    List.getElem?_set_ne (Ne.symm h1), List.getElem?_set_ne (Ne.symm h2)]

lemma write3_getD_self0 (row : List ℚ) (i : ℕ) (f : List ℚ)
    (h : 3 * i + 2 < row.length) :
    (write3 row i f).getD (3 * i) 0 = f.getD 0 0 := by
  rw [write3, List.getD_eq_getElem?_getD,
    List.getElem?_set_ne (show 3 * i + 2 ≠ 3 * i by omega),
    List.getElem?_set_ne (show 3 * i + 1 ≠ 3 * i by omega),
    List.getElem?_set_self (show 3 * i < row.length by omega)]
  rfl

lemma write3_getD_self1 (row : List ℚ) (i : ℕ) (f : List ℚ)
    (h : 3 * i + 2 < row.length) :
    (write3 row i f).getD (3 * i + 1) 0 = f.getD 1 0 := by
  rw [write3, List.getD_eq_getElem?_getD,
    List.getElem?_set_ne (show 3 * i + 2 ≠ 3 * i + 1 by omega),
    List.getElem?_set_self
      (show 3 * i + 1 < (row.set (3 * i) (f.getD 0 0)).length by
        rw [List.length_set]; omega)]
  rfl

lemma write3_getD_self2 (row : List ℚ) (i : ℕ) (f : List ℚ)
    (h : 3 * i + 2 < row.length) :
    (write3 row i f).getD (3 * i + 2) 0 = f.getD 2 0 := by
  rw [write3, List.getD_eq_getElem?_getD,
    List.getElem?_set_self
      (show 3 * i + 2 <
          ((row.set (3 * i) (f.getD 0 0)).set (3 * i + 1) (f.getD 1 0)).length by
        rw [List.length_set, List.length_set]; omega)]
  rfl

lemma foldl_write3_length (F : ℕ → List ℚ) (l : List ℕ) (row : List ℚ) :
    (l.foldl (fun r j => write3 r j (F j)) row).length = row.length := by
  induction l generalizing row with
  | nil => rfl
  | cons a t ih => rw [List.foldl_cons, ih]; exact write3_length row a (F a)

lemma foldl_write3_getD_notMem (F : ℕ → List ℚ) (l : List ℕ) (row : List ℚ)
    (i k : ℕ) (hk : k < 3) (h : i ∉ l) :
    (l.foldl (fun r j => write3 r j (F j)) row).getD (3 * i + k) 0 =
      row.getD (3 * i + k) 0 := by
  induction l generalizing row with
  | nil => rfl
  | cons a t ih =>
    have hia : i ≠ a := fun he => h (he ▸ List.mem_cons_self a t)
    have ht : i ∉ t := fun he => h (List.mem_cons_of_mem a he)
    rw [List.foldl_cons, ih _ ht]
    exact write3_getD_ne row a (F a) _ (by omega) (by omega) (by omega)

lemma foldl_write3_getD_mem (F : ℕ → List ℚ) (l : List ℕ) (row : List ℚ)
    (i k : ℕ) (hk : k < 3) (hnd : l.Nodup) (hm : i ∈ l)
    (hb : 3 * i + 2 < row.length) :
    (l.foldl (fun r j => write3 r j (F j)) row).getD (3 * i + k) 0 =
      (F i).getD k 0 := by
  induction l generalizing row with
  | nil => cases hm
  | cons a t ih =>
    rw [List.foldl_cons]
    rcases List.nodup_cons.mp hnd with ⟨hat, htnd⟩
    by_cases hai : a = i
    · subst hai
      rw [foldl_write3_getD_notMem F t _ a k hk hat]
      interval_cases k
      · exact write3_getD_self0 row a (F a) hb
      · exact write3_getD_self1 row a (F a) hb
      · exact write3_getD_self2 row a (F a) hb
    · have hit : i ∈ t := by
        rcases List.mem_cons.mp hm with h | h
        · exact absurd h.symm hai
        · exact h
      exact ih _ htnd hit (by rw [write3_length]; exact hb)

/-! ### `dedupFirst` and `groupIdx` -/

lemma mem_dedupFirst_aux (l : List (ℕ × ℕ)) (acc : List (ℕ × ℕ)) (x : ℕ × ℕ) :
    x ∈ l.foldl (fun acc p => if p ∈ acc then acc else acc ++ [p]) acc ↔
      x ∈ acc ∨ x ∈ l := by
  induction l generalizing acc with
  | nil => simp
  | cons a t ih =>
    rw [List.foldl_cons]
    by_cases ha : a ∈ acc
    · simp only [if_pos ha, ih]
      constructor
      · rintro (h | h)
        · exact Or.inl h
        · exact Or.inr (List.mem_cons_of_mem a h)
      · rintro (h | h)
        · exact Or.inl h
        · rcases List.mem_cons.mp h with rfl | h
          · exact Or.inl ha
          · exact Or.inr h
    · simp only [if_neg ha, ih]
      simp [List.mem_append, List.mem_cons]
      tauto

lemma mem_dedupFirst (l : List (ℕ × ℕ)) (x : ℕ × ℕ) :
    x ∈ dedupFirst l ↔ x ∈ l := by
  rw [dedupFirst, mem_dedupFirst_aux]
  simp

lemma nodup_dedupFirst_aux (l : List (ℕ × ℕ)) (acc : List (ℕ × ℕ))
    (hacc : acc.Nodup) :
    (l.foldl (fun acc p => if p ∈ acc then acc else acc ++ [p]) acc).Nodup := by
  induction l generalizing acc with
  | nil => exact hacc
  | cons a t ih =>
    rw [List.foldl_cons]
    by_cases ha : a ∈ acc
    · rw [if_pos ha]; exact ih acc hacc
    · rw [if_neg ha]
      refine ih _ ?_
      rw [List.nodup_append]
      exact ⟨hacc, List.nodup_singleton a, by simpa using fun h => ha h⟩

lemma nodup_dedupFirst (l : List (ℕ × ℕ)) : (dedupFirst l).Nodup :=
  nodup_dedupFirst_aux l [] List.nodup_nil

lemma mem_groupIdx (S : MShapelets) (p : ℕ × ℕ) (i : ℕ) :
    i ∈ groupIdx S p ↔
      i < S.lengths.length ∧ S.lengths.getD i 0 = p.1 ∧ S.dilations.getD i 0 = p.2 := by
  simp [groupIdx, List.mem_filter, List.mem_range, and_assoc]

lemma nodup_groupIdx (S : MShapelets) (p : ℕ × ℕ) : (groupIdx S p).Nodup :=
  (List.nodup_range _).filter _

/-! ### `applyGroup` and the outer group fold -/

section ApplierLemmas

variable (dist : List ℚ → List ℚ → ℚ) (sq : ℚ → ℚ) (phase : Bool)
variable (sample : List (List ℚ)) (S : MShapelets)

lemma applyGroup_length (row : List ℚ) (p : ℕ × ℕ) :
    (applyGroup dist sq phase sample S row p).length = row.length := by
  rw [applyGroup, foldl_write3_length, foldl_write3_length]

lemma applyGroup_getD_notMem (row : List ℚ) (p : ℕ × ℕ) (i k : ℕ)
    (hk : k < 3) (h : i ∉ groupIdx S p) :
    (applyGroup dist sq phase sample S row p).getD (3 * i + k) 0 =
      row.getD (3 * i + k) 0 := by
  rw [applyGroup,
    foldl_write3_getD_notMem _ _ _ _ _ hk (fun hm => h (List.mem_of_mem_filter hm)),
    foldl_write3_getD_notMem _ _ _ _ _ hk (fun hm => h (List.mem_of_mem_filter hm))]

lemma applyGroup_getD_mem (row : List ℚ) (p : ℕ × ℕ) (i k : ℕ)
    (hk : k < 3) (h : i ∈ groupIdx S p) (hb : 3 * i + 2 < row.length) :
    (applyGroup dist sq phase sample S row p).getD (3 * i + k) 0 =
      (groupFeats dist sq phase sample S p (S.normalize.getD i false) i).getD k 0 := by
  cases hbn : S.normalize.getD i false with
  | false =>
    rw [applyGroup,
      foldl_write3_getD_notMem _ _ _ _ _ hk
        (fun hm => by
          have h2 : S.normalize.getD i false = true := (List.mem_filter.mp hm).2
          rw [hbn] at h2; cases h2),
      foldl_write3_getD_mem _ _ _ _ _ hk ((nodup_groupIdx S p).filter _)
        (List.mem_filter.mpr ⟨h, show (!(S.normalize.getD i false)) = true by
          rw [hbn]; rfl⟩) hb]
  | true =>
    rw [applyGroup,
      foldl_write3_getD_mem _ _ _ _ _ hk ((nodup_groupIdx S p).filter _)
        (List.mem_filter.mpr ⟨h, show S.normalize.getD i false = true from hbn⟩)
        (by rw [foldl_write3_length]; exact hb)]

lemma groupFeats_eq_shapeletFeatures (p : ℕ × ℕ) (i : ℕ)
    (h : i ∈ groupIdx S p) :
    groupFeats dist sq phase sample S p (S.normalize.getD i false) i =
      shapeletFeatures dist sq phase sample S i := by
  rcases (mem_groupIdx S p i).mp h with ⟨_, hL, hD⟩
  cases hbn : S.normalize.getD i false with
  | false =>
    simp only [List.getD_eq_getElem?_getD] at hL hD hbn
    simp [groupFeats, shapeletFeatures, hbn, hL, hD]
  | true =>
    simp only [List.getD_eq_getElem?_getD] at hL hD hbn
    simp [groupFeats, shapeletFeatures, hbn, hL, hD]

lemma foldl_applyGroup_length (params : List (ℕ × ℕ)) (row : List ℚ) :
    (params.foldl (applyGroup dist sq phase sample S) row).length = row.length := by
  induction params generalizing row with
  | nil => rfl
  | cons q t ih => rw [List.foldl_cons, ih]; exact applyGroup_length dist sq phase sample S row q

lemma foldl_applyGroup_getD_notMem (params : List (ℕ × ℕ)) (row : List ℚ)
    (i k : ℕ) (hk : k < 3) (h : ∀ p ∈ params, i ∉ groupIdx S p) :
    (params.foldl (applyGroup dist sq phase sample S) row).getD (3 * i + k) 0 =
      row.getD (3 * i + k) 0 := by
  induction params generalizing row with
  | nil => rfl
  | cons q t ih =>
    rw [List.foldl_cons, ih _ (fun p hp => h p (List.mem_cons_of_mem q hp))]
    exact applyGroup_getD_notMem dist sq phase sample S row q i k hk
      (h q (List.mem_cons_self q t))

lemma foldl_applyGroup_getD_mem (params : List (ℕ × ℕ)) (row : List ℚ)
    (i k : ℕ) (hk : k < 3) (hnd : params.Nodup)
    (hp : (S.lengths.getD i 0, S.dilations.getD i 0) ∈ params)
    (hi : i < S.lengths.length) (hb : 3 * i + 2 < row.length) :
    (params.foldl (applyGroup dist sq phase sample S) row).getD (3 * i + k) 0 =
      (shapeletFeatures dist sq phase sample S i).getD k 0 := by
  induction params generalizing row with
  | nil => cases hp
  | cons q t ih =>
    rcases List.nodup_cons.mp hnd with ⟨hqt, htnd⟩
    rw [List.foldl_cons]
    by_cases hq : q = (S.lengths.getD i 0, S.dilations.getD i 0)
    · subst hq
      have hmem : i ∈ groupIdx S (S.lengths.getD i 0, S.dilations.getD i 0) :=
        (mem_groupIdx S _ i).mpr ⟨hi, rfl, rfl⟩
      rw [foldl_applyGroup_getD_notMem dist sq phase sample S t _ i k hk
        (fun p hpt hmemp => by
          rcases (mem_groupIdx S p i).mp hmemp with ⟨_, hL, hD⟩
          exact hqt (by rw [hL, hD, Prod.mk.eta]; exact hpt))]
      rw [applyGroup_getD_mem dist sq phase sample S row _ i k hk hmem hb]
      rw [groupFeats_eq_shapeletFeatures dist sq phase sample S _ i hmem]
    · have hmemq : i ∉ groupIdx S q := fun hmemq => by
        rcases (mem_groupIdx S q i).mp hmemq with ⟨_, hL, hD⟩
        exact hq (by rw [hL, hD, Prod.mk.eta])
      have hpt : (S.lengths.getD i 0, S.dilations.getD i 0) ∈ t := by
        rcases List.mem_cons.mp hp with h | h
        · exact absurd h.symm hq
        · exact h
      exact ih _ htnd hpt (by rw [applyGroup_length]; exact hb)

end ApplierLemmas

lemma getD_map_of_lt {α β : Type} (f : α → β) (l : List α) (s : ℕ)
    (h : s < l.length) (d : α) (d' : β) :
    (l.map f).getD s d' = f (l.getD s d) := by
  have h2 : s < (l.map f).length := by simpa using h
  rw [List.getD_eq_getElem?_getD, List.getElem?_eq_getElem h2, List.getElem_map,
    Option.getD_some, List.getD_eq_getElem?_getD, List.getElem?_eq_getElem h,
    Option.getD_some]

lemma pair_mem_combinations (S : MShapelets) (i : ℕ)
    (hdl : S.dilations.length = S.lengths.length) (hi : i < S.lengths.length) :
    (S.lengths.getD i 0, S.dilations.getD i 0) ∈
      combinations_1d S.lengths S.dilations := by
  rw [combinations_1d, mem_dedupFirst]
  have hz : i < (S.lengths.zip S.dilations).length := by
    rw [List.length_zip, hdl]; simp [hi]
  have hL : i < S.lengths.length := hi
  have hD : i < S.dilations.length := by rw [hdl]; exact hi
  have : (S.lengths.zip S.dilations)[i] = (S.lengths.getD i 0, S.dilations.getD i 0) := by
    rw [List.getElem_zip]
    rw [List.getD_eq_getElem?_getD, List.getElem?_eq_getElem hL, Option.getD_some,
      List.getD_eq_getElem?_getD, List.getElem?_eq_getElem hD, Option.getD_some]
  exact this ▸ List.getElem_mem hz

/-- The central refinement fact about the Applier: for every in-range sample
`s` and original shapelet index `i`, entry `3*i + k` of row `s` of the output
equals component `k` of the per-shapelet reference semantics
`shapeletFeatures` — the grouping by `(length, dilation)` and by `normalize`
flag is invisible in the result. -/
lemma apply_all_row_getD (dist : List ℚ → List ℚ → ℚ) (sq : ℚ → ℚ)
    (phase : Bool) (X : List (List (List ℚ))) (S : MShapelets) (s i k : ℕ)
    (hk : k < 3) (hdl : S.dilations.length = S.lengths.length)
    (hs : s < X.length) (hi : i < S.lengths.length) :
    ((M_SL_apply_all_shapelets dist sq phase X S).getD s []).getD (3 * i + k) 0 =
      (shapeletFeatures dist sq phase (X.getD s []) S i).getD k 0 := by
  rw [M_SL_apply_all_shapelets, getD_map_of_lt _ X s hs []]
  exact foldl_applyGroup_getD_mem dist sq phase (X.getD s []) S _ _ i k hk
    (nodup_dedupFirst _) (pair_mem_combinations S i hdl hi) hi
    (by rw [List.length_replicate]; omega)

lemma eq_triple_of_length_three (l : List ℚ) (h : l.length = 3) :
    l = [l.getD 0 0, l.getD 1 0, l.getD 2 0] := by
  match l, h with
  | [a, b, c], _ => rfl

lemma shapeletFeatures_length (dist : List ℚ → List ℚ → ℚ) (sq : ℚ → ℚ)
    (phase : Bool) (sample : List (List ℚ)) (S : MShapelets) (i : ℕ) :
    (shapeletFeatures dist sq phase sample S i).length = 3 := rfl

/-! ### Generator lemmas -/

lemma length_znorm (sq : ℚ → ℚ) (v : List ℚ) : (znorm sq v).length = v.length := by
  simp [znorm]

lemma length_get_subsequence (sq : ℚ → ℚ) (x : List ℚ) (index L d : ℕ)
    (norm : Bool) (phase : Bool) :
    (get_subsequence sq x index L d norm phase).length = L := by
  rw [get_subsequence]
  cases norm <;> simp [length_znorm]

lemma length_stepChans (n_channels : List ℕ) (C : ℕ → GenChoice) (i : ℕ) :
    (stepChans n_channels C i).length = n_channels.getD i 0 := by
  simp [stepChans]

lemma length_stepVals (sq : ℚ → ℚ) (phase : Bool) (X : List (List (List ℚ)))
    (lengths dilations : List ℕ) (normalize : List Bool) (n_channels : List ℕ)
    (C : ℕ → GenChoice) (i : ℕ) :
    (stepVals sq phase X lengths dilations normalize n_channels C i).length =
      n_channels.getD i 0 * lengths.getD i 0 := by
  rw [stepVals, List.flatMap, List.length_flatten, List.map_map]
  have : ∀ k, (List.length ∘ fun k =>
      get_subsequence sq ((X.getD ((C i).anchor.1) []).getD ((stepChans n_channels C i).getD k 0) [])
        ((C i).anchor.2) (lengths.getD i 0) (dilations.getD i 0)
        (normalize.getD i false) phase) k = lengths.getD i 0 := by
    intro k
    exact length_get_subsequence sq _ _ _ _ _ phase
  rw [List.map_congr_left (fun k _ => this k)]
  induction n_channels.getD i 0 with
  | zero => simp
  | succ m ih =>
    rw [List.range_succ, List.map_append, List.sum_append]
    simp [ih, Nat.succ_mul]

lemma le_foldr_max (dils : List ℕ) (d : ℕ) (h : d ∈ dils) :
    d ≤ dils.foldr max 0 := by
  induction dils with
  | nil => cases h
  | cons a t ih =>
    rcases List.mem_cons.mp h with rfl | h2
    · exact Nat.le_max_left d _
    · exact Nat.le_trans (ih h2) (Nat.le_max_right a _)

lemma mem_uniqueDil (dils : List ℕ) (d : ℕ) : d ∈ uniqueDil dils ↔ d ∈ dils := by
  constructor
  · intro h
    have h2 := (List.mem_filter.mp h).2
    exact List.elem_iff.mp h2
  · intro h
    refine List.mem_filter.mpr ⟨?_, List.elem_iff.mpr h⟩
    exact List.mem_range.mpr (Nat.lt_succ_of_le (le_foldr_max dils d h))

lemma nodup_uniqueDil (dils : List ℕ) : (uniqueDil dils).Nodup :=
  (List.nodup_range _).filter _

lemma mem_idsWithDil (dils : List ℕ) (n d i : ℕ) :
    i ∈ idsWithDil dils n d ↔ i < n ∧ dils.getD i 0 = d := by
  simp [idsWithDil, List.mem_filter, List.mem_range]

lemma count_flatMap_nat (g : ℕ → List ℕ) (ks : List ℕ) (x : ℕ) :
    (ks.flatMap g).count x = (ks.map (fun d => (g d).count x)).sum := by
  induction ks with
  | nil => rfl
  | cons a t ih => rw [List.flatMap_cons, List.count_append, ih]; simp

lemma count_range_nat (n x : ℕ) : (List.range n).count x = if x < n then 1 else 0 := by
  by_cases h : x < n
  · rw [if_pos h]
    exact List.count_eq_one_of_mem (List.nodup_range n) (List.mem_range.mpr h)
  · rw [if_neg h]
    exact List.count_eq_zero_of_not_mem (fun hm => h (List.mem_range.mp hm))

lemma count_idsWithDil (dils : List ℕ) (n d x : ℕ) :
    (idsWithDil dils n d).count x =
      if x < n ∧ dils.getD x 0 = d then 1 else 0 := by
  by_cases h : x ∈ idsWithDil dils n d
  · rw [if_pos ((mem_idsWithDil dils n d x).mp h)]
    exact List.count_eq_one_of_mem ((List.nodup_range n).filter _) h
  · rw [if_neg (fun hc => h ((mem_idsWithDil dils n d x).mpr hc))]
    exact List.count_eq_zero_of_not_mem h

lemma sum_map_indicator (ks : List ℕ) (y : ℕ) :
    (ks.map (fun d => if d = y then 1 else 0)).sum = ks.count y := by
  induction ks with
  | nil => rfl
  | cons a t ih =>
    rw [List.map_cons, List.sum_cons, ih, List.count_cons]
    by_cases h : a = y
    · simp [h]
      omega
    · simp [h]

lemma allProcessed_perm (dils : List ℕ) (n : ℕ) (hn : dils.length = n) :
    (allProcessed dils n).Perm (List.range n) := by
  rw [List.perm_iff_count]
  intro x
  rw [allProcessed, count_flatMap_nat, count_range_nat]
  by_cases hx : x < n
  · have hmem : dils.getD x 0 ∈ dils := by
      have hxd : x < dils.length := by rw [hn]; exact hx
      have : dils.getD x 0 = dils[x] := by
        rw [List.getD_eq_getElem?_getD, List.getElem?_eq_getElem hxd, Option.getD_some]
      rw [this]
      exact List.getElem_mem hxd
    rw [if_pos hx]
    have heq : (uniqueDil dils).map (fun d => (idsWithDil dils n d).count x) =
        (uniqueDil dils).map (fun d => if d = dils.getD x 0 then 1 else 0) := by
      refine List.map_congr_left (fun d _ => ?_)
      rw [count_idsWithDil]
      by_cases hd : dils.getD x 0 = d
      · rw [if_pos ⟨hx, hd⟩, if_pos hd.symm]
      · rw [if_neg (fun hc => hd hc.2), if_neg (fun hc => hd hc.symm)]
    rw [heq, sum_map_indicator]
    exact List.count_eq_one_of_mem (nodup_uniqueDil dils)
      ((mem_uniqueDil dils _).mpr hmem)
  · rw [if_neg hx]
    have heq : (uniqueDil dils).map (fun d => (idsWithDil dils n d).count x) =
        (uniqueDil dils).map (fun _ => 0) := by
      refine List.map_congr_left (fun d _ => ?_)
      rw [count_idsWithDil, if_neg (fun hc => hx hc.1)]
    rw [heq]
    simp

section GenLemmas

variable (sq : ℚ → ℚ) (phase : Bool) (n_t : ℕ) (alpha : ℚ)
variable (X : List (List (List ℚ)))
variable (lengths dilations : List ℕ) (normalize : List Bool) (n_channels : List ℕ)
variable (C : ℕ → GenChoice)

lemma genStep_ret_kept (i_d minL : ℕ) (st : GenState) (i : ℕ)
    (h : stepKept phase n_t alpha X lengths dilations normalize n_channels C i_d st i = true) :
    (genStep sq phase n_t alpha X lengths dilations normalize n_channels C
      i_d minL st i).ret = st.ret := by
  rw [genStep, if_pos h]

lemma genStep_ret_dropped (i_d minL : ℕ) (st : GenState) (i : ℕ)
    (h : stepKept phase n_t alpha X lengths dilations normalize n_channels C i_d st i = false) :
    (genStep sq phase n_t alpha X lengths dilations normalize n_channels C
      i_d minL st i).ret = fun j => if j = i then false else st.ret j := by
  rw [genStep, if_neg (by rw [h]; exact Bool.false_ne_true)]

lemma genStep_valuesAcc_kept (i_d minL : ℕ) (st : GenState) (i : ℕ)
    (h : stepKept phase n_t alpha X lengths dilations normalize n_channels C i_d st i = true) :
    (genStep sq phase n_t alpha X lengths dilations normalize n_channels C
      i_d minL st i).valuesAcc =
      st.valuesAcc ++ stepVals sq phase X lengths dilations normalize n_channels C i := by
  rw [genStep, if_pos h]

lemma genStep_valuesAcc_dropped (i_d minL : ℕ) (st : GenState) (i : ℕ)
    (h : stepKept phase n_t alpha X lengths dilations normalize n_channels C i_d st i = false) :
    (genStep sq phase n_t alpha X lengths dilations normalize n_channels C
      i_d minL st i).valuesAcc = st.valuesAcc := by
  rw [genStep, if_neg (by rw [h]; exact Bool.false_ne_true)]

lemma genStep_chanAcc_kept (i_d minL : ℕ) (st : GenState) (i : ℕ)
    (h : stepKept phase n_t alpha X lengths dilations normalize n_channels C i_d st i = true) :
    (genStep sq phase n_t alpha X lengths dilations normalize n_channels C
      i_d minL st i).chanAcc = st.chanAcc ++ stepChans n_channels C i := by
  rw [genStep, if_pos h]

lemma genStep_chanAcc_dropped (i_d minL : ℕ) (st : GenState) (i : ℕ)
    (h : stepKept phase n_t alpha X lengths dilations normalize n_channels C i_d st i = false) :
    (genStep sq phase n_t alpha X lengths dilations normalize n_channels C
      i_d minL st i).chanAcc = st.chanAcc := by
  rw [genStep, if_neg (by rw [h]; exact Bool.false_ne_true)]

end GenLemmas

lemma foldl_flatMap {α β γ : Type} (g : γ → List α) (f : β → α → β)
    (l : List γ) (b : β) :
    (l.flatMap g).foldl f b = l.foldl (fun acc c => (g c).foldl f acc) b := by
  induction l generalizing b with
  | nil => rfl
  | cons a t ih => rw [List.flatMap_cons, List.foldl_append, List.foldl_cons, ih]

lemma genLoop_eq_genFold (sq : ℚ → ℚ) (phase : Bool) (n_t : ℕ) (alpha : ℚ)
    (X : List (List (List ℚ)))
    (lengths dilations : List ℕ) (normalize : List Bool) (n_channels : List ℕ)
    (C : ℕ → GenChoice) :
    genLoop sq phase n_t alpha X lengths dilations normalize n_channels C =
      genFold sq phase n_t alpha X lengths dilations normalize n_channels C
        (genSchedule dilations lengths) genInit := by
  simp only [genLoop, genFold, genSchedule]
  rw [foldl_flatMap]
  simp only [List.foldl_map]

lemma genSchedule_indices (dilations lengths : List ℕ) :
    (genSchedule dilations lengths).map (fun t => t.2.2) =
      allProcessed dilations lengths.length := by
  rw [genSchedule, allProcessed, List.map_flatMap]
  have h2 : (fun (pr : ℕ × ℕ) => List.map (fun t : ℕ × ℕ × ℕ => t.2.2)
      (List.map (fun i =>
        (pr.1, natListMin ((idsWithDil dilations lengths.length pr.2).map
          (fun j => lengths.getD j 0)), i))
        (idsWithDil dilations lengths.length pr.2))) =
      (fun pr : ℕ × ℕ => idsWithDil dilations lengths.length pr.2) := by
    funext pr
    rw [List.map_map]
    exact List.map_id'' (fun x => rfl) _
  rw [h2]
  conv_rhs => rw [← List.enum_map_snd (uniqueDil dilations), List.flatMap_map]

section GenInvariant

variable (sq : ℚ → ℚ) (phase : Bool) (n_t : ℕ) (alpha : ℚ)
variable (X : List (List (List ℚ)))
variable (lengths dilations : List ℕ) (normalize : List Bool) (n_channels : List ℕ)
variable (C : ℕ → GenChoice)

/-- The bookkeeping invariant of the generation loop: indices not yet
processed are still marked retained, and the flat `values` / `channel_ids`
buffers hold exactly one block per processed-and-retained shapelet, of sizes
`n_channels[i] * lengths[i]` and `n_channels[i]`. -/
lemma gen_fold_invariant (sch : List (ℕ × ℕ × ℕ)) (st : GenState) (P : List ℕ)
    (hnd : (P ++ sch.map (fun t => t.2.2)).Nodup)
    (hI1 : ∀ j, j ∉ P → st.ret j = true)
    (hI2 : st.valuesAcc.length =
      ((P.filter st.ret).map (fun i => n_channels.getD i 0 * lengths.getD i 0)).sum)
    (hI3 : st.chanAcc.length =
      ((P.filter st.ret).map (fun i => n_channels.getD i 0)).sum) :
    (∀ j, j ∉ P ++ sch.map (fun t => t.2.2) →
      (genFold sq phase n_t alpha X lengths dilations normalize n_channels C sch st).ret j = true) ∧
    (genFold sq phase n_t alpha X lengths dilations normalize n_channels C sch st).valuesAcc.length =
      (((P ++ sch.map (fun t => t.2.2)).filter
        (genFold sq phase n_t alpha X lengths dilations normalize n_channels C sch st).ret).map
          (fun i => n_channels.getD i 0 * lengths.getD i 0)).sum ∧
    (genFold sq phase n_t alpha X lengths dilations normalize n_channels C sch st).chanAcc.length =
      (((P ++ sch.map (fun t => t.2.2)).filter
        (genFold sq phase n_t alpha X lengths dilations normalize n_channels C sch st).ret).map
          (fun i => n_channels.getD i 0)).sum := by
  induction sch generalizing st P with
  | nil =>
    refine ⟨fun j hj => hI1 j (by simpa using hj), ?_, ?_⟩
    · simpa using hI2
    · simpa using hI3
  | cons a rest ih =>
    rw [List.map_cons] at hnd
    have hPi : (P ++ [a.2.2]) ++ rest.map (fun t => t.2.2) =
        P ++ a.2.2 :: rest.map (fun t => t.2.2) := by simp
    have hiP : a.2.2 ∉ P := by
      rcases List.nodup_append.mp hnd with ⟨_, _, hdis⟩
      exact fun hmem => hdis hmem (List.mem_cons_self _ _)
    have hndr : ((P ++ [a.2.2]) ++ rest.map (fun t => t.2.2)).Nodup := by
      rw [hPi]; exact hnd
    have hstep : genFold sq phase n_t alpha X lengths dilations normalize n_channels C
        (a :: rest) st =
        genFold sq phase n_t alpha X lengths dilations normalize n_channels C rest
          (genStep sq phase n_t alpha X lengths dilations normalize n_channels C
            a.1 a.2.1 st a.2.2) := rfl
    rw [hstep, List.map_cons, ← hPi]
    cases hk : stepKept phase n_t alpha X lengths dilations normalize n_channels C a.1 st a.2.2 with
    | true =>
      have hret := genStep_ret_kept sq phase n_t alpha X lengths dilations normalize
        n_channels C a.1 a.2.1 st a.2.2 hk
      have hri : st.ret a.2.2 = true := hI1 _ hiP
      refine ih _ _ hndr ?_ ?_ ?_
      · intro j hj
        rw [hret]
        exact hI1 j (fun hmem => hj (List.mem_append_left _ hmem))
      · rw [genStep_valuesAcc_kept sq phase n_t alpha X lengths dilations normalize
          n_channels C a.1 a.2.1 st a.2.2 hk, List.length_append,
          length_stepVals, hI2, hret, List.filter_append, List.map_append,
          List.sum_append]
        simp [List.filter, hri]
      · rw [genStep_chanAcc_kept sq phase n_t alpha X lengths dilations normalize
          n_channels C a.1 a.2.1 st a.2.2 hk, List.length_append,
          length_stepChans, hI3, hret, List.filter_append, List.map_append,
          List.sum_append]
        simp [List.filter, hri]
    | false =>
      have hret := genStep_ret_dropped sq phase n_t alpha X lengths dilations normalize
        n_channels C a.1 a.2.1 st a.2.2 hk
      refine ih _ _ hndr ?_ ?_ ?_
      · intro j hj
        rw [hret]
        have hjne : j ≠ a.2.2 := fun he =>
          hj (List.mem_append_right _ (he ▸ List.mem_singleton_self _))
        show (if j = a.2.2 then false else st.ret j) = true
        rw [if_neg hjne]
        exact hI1 j (fun hmem => hj (List.mem_append_left _ hmem))
      · rw [genStep_valuesAcc_dropped sq phase n_t alpha X lengths dilations normalize
          n_channels C a.1 a.2.1 st a.2.2 hk, hI2, hret, List.filter_append,
          List.map_append, List.sum_append]
        have hcong : P.filter (fun j => if j = a.2.2 then false else st.ret j) =
            P.filter st.ret := by
          refine List.filter_congr (fun j hj => ?_)
          show (if j = a.2.2 then false else st.ret j) = st.ret j
          rw [if_neg (show j ≠ a.2.2 from fun he => hiP (by rw [← he]; exact hj))]
        rw [hcong]
        simp [List.filter]
      · rw [genStep_chanAcc_dropped sq phase n_t alpha X lengths dilations normalize
          n_channels C a.1 a.2.1 st a.2.2 hk, hI3, hret, List.filter_append,
          List.map_append, List.sum_append]
        have hcong : P.filter (fun j => if j = a.2.2 then false else st.ret j) =
            P.filter st.ret := by
          refine List.filter_congr (fun j hj => ?_)
          show (if j = a.2.2 then false else st.ret j) = st.ret j
          rw [if_neg (show j ≠ a.2.2 from fun he => hiP (by rw [← he]; exact hj))]
        rw [hcong]
        simp [List.filter]

end GenInvariant

section AlphaZero

variable (sq : ℚ → ℚ) (phase : Bool) (n_t : ℕ)
variable (X : List (List (List ℚ)))
variable (lengths dilations : List ℕ) (normalize : List Bool) (n_channels : List ℕ)
variable (C : ℕ → GenChoice)

/-- With `alpha = 0` the eligibility test reads
`sum of mask entries >= n_channels * 0`, which holds at any position, so a
shapelet with a non-empty sampling region over a non-empty dataset is always
placed. -/
lemma stepKept_alpha_zero (i_d : ℕ) (st : GenState) (i : ℕ)
    (hX : 0 < X.length)
    (hd : 0 < numPos n_t (lengths.getD i 0) (dilations.getD i 0) phase) :
    stepKept phase n_t 0 X lengths dilations normalize n_channels C i_d st i = true := by
  rw [stepKept, List.any_eq_true]
  refine ⟨0, List.mem_range.mpr hX, ?_⟩
  rw [List.any_eq_true]
  refine ⟨0, List.mem_range.mpr hd, ?_⟩
  rw [decide_eq_true_eq, mul_zero]
  apply List.sum_nonneg
  intro x hx
  rcases List.mem_map.mp hx with ⟨c, _, rfl⟩
  split <;> norm_num

lemma genFold_ret_all_true (sch : List (ℕ × ℕ × ℕ)) (st : GenState)
    (hall : ∀ j, st.ret j = true) (hX : 0 < X.length)
    (hsh : ∀ t ∈ sch,
      0 < numPos n_t (lengths.getD t.2.2 0) (dilations.getD t.2.2 0) phase) :
    ∀ j, (genFold sq phase n_t 0 X lengths dilations normalize n_channels C
      sch st).ret j = true := by
  induction sch generalizing st with
  | nil => exact hall
  | cons a rest ih =>
    have hk := stepKept_alpha_zero phase n_t X lengths dilations normalize
      n_channels C a.1 st a.2.2 hX (hsh a (List.mem_cons_self a rest))
    have hstep : genFold sq phase n_t 0 X lengths dilations normalize n_channels C
        (a :: rest) st =
        genFold sq phase n_t 0 X lengths dilations normalize n_channels C rest
          (genStep sq phase n_t 0 X lengths dilations normalize n_channels C
            a.1 a.2.1 st a.2.2) := rfl
    rw [hstep]
    refine ih _ ?_ (fun t ht => hsh t (List.mem_cons_of_mem a ht))
    intro j
    rw [genStep_ret_kept sq phase n_t 0 X lengths dilations normalize n_channels C
      a.1 a.2.1 st a.2.2 hk]
    exact hall j

end AlphaZero

/-! ### Mask update lemmas (for C9) -/

lemma maskSet_apply_ne (m : Mask) (nr0 : Bool) (id0 s0 c0 t0 : ℕ)
    (nr : Bool) (id s c t : ℕ)
    (h : ¬(nr = nr0 ∧ id = id0 ∧ s = s0 ∧ c = c0 ∧ t = t0)) :
    maskSet m nr0 id0 s0 c0 t0 nr id s c t = m nr id s c t := by
  simp only [maskSet]
  rw [if_neg h]

lemma maskSet_apply_self (m : Mask) (nr0 : Bool) (id0 s0 c0 t0 : ℕ) :
    maskSet m nr0 id0 s0 c0 t0 nr0 id0 s0 c0 t0 = false := by
  simp [maskSet]

lemma maskSet_false_mono (m : Mask) (nr0 : Bool) (id0 s0 c0 t0 : ℕ)
    (nr : Bool) (id s c t : ℕ) (h : m nr id s c t = false) :
    maskSet m nr0 id0 s0 c0 t0 nr id s c t = false := by
  simp only [maskSet]
  split
  · rfl
  · exact h

section MaskFold

variable (nrm : Bool) (i_d s0 : ℕ) (c t0 d n_t : ℕ)

/-- The inner loop body of the mask update for one channel `c`. -/
lemma foldl_maskPair_ne (js : List ℕ) (m : Mask) (nr : Bool) (id s c' t : ℕ)
    (h : ∀ j ∈ js,
      ¬(nr = nrm ∧ id = i_d ∧ s = s0 ∧ c' = c ∧ t = fwdIdx t0 j d n_t) ∧
      ¬(nr = nrm ∧ id = i_d ∧ s = s0 ∧ c' = c ∧ t = bwdIdx t0 j d n_t)) :
    (js.foldl (fun acc2 j =>
      maskSet (maskSet acc2 nrm i_d s0 c (bwdIdx t0 j d n_t))
        nrm i_d s0 c (fwdIdx t0 j d n_t)) m) nr id s c' t = m nr id s c' t := by
  induction js generalizing m with
  | nil => rfl
  | cons a rest ih =>
    rw [List.foldl_cons, ih _ (fun j hj => h j (List.mem_cons_of_mem a hj)),
      maskSet_apply_ne _ _ _ _ _ _ _ _ _ _ _ (h a (List.mem_cons_self a rest)).1,
      maskSet_apply_ne _ _ _ _ _ _ _ _ _ _ _ (h a (List.mem_cons_self a rest)).2]

lemma foldl_maskPair_false_mono (js : List ℕ) (m : Mask) (nr : Bool)
    (id s c' t : ℕ) (h : m nr id s c' t = false) :
    (js.foldl (fun acc2 j =>
      maskSet (maskSet acc2 nrm i_d s0 c (bwdIdx t0 j d n_t))
        nrm i_d s0 c (fwdIdx t0 j d n_t)) m) nr id s c' t = false := by
  induction js generalizing m with
  | nil => exact h
  | cons a rest ih =>
    rw [List.foldl_cons]
    exact ih _ (maskSet_false_mono _ _ _ _ _ _ _ _ _ _ _
      (maskSet_false_mono _ _ _ _ _ _ _ _ _ _ _ h))

lemma foldl_maskPair_sets (js : List ℕ) (m : Mask) (j0 : ℕ) (hj : j0 ∈ js) :
    (js.foldl (fun acc2 j =>
      maskSet (maskSet acc2 nrm i_d s0 c (bwdIdx t0 j d n_t))
        nrm i_d s0 c (fwdIdx t0 j d n_t)) m) nrm i_d s0 c (fwdIdx t0 j0 d n_t) = false ∧
    (js.foldl (fun acc2 j =>
      maskSet (maskSet acc2 nrm i_d s0 c (bwdIdx t0 j d n_t))
        nrm i_d s0 c (fwdIdx t0 j d n_t)) m) nrm i_d s0 c (bwdIdx t0 j0 d n_t) = false := by
  induction js generalizing m with
  | nil => cases hj
  | cons a rest ih =>
    rw [List.foldl_cons]
    rcases List.mem_cons.mp hj with rfl | hj2
    · constructor
      · exact foldl_maskPair_false_mono nrm i_d s0 c t0 d n_t rest _ _ _ _ _ _
          (maskSet_apply_self _ _ _ _ _ _)
      · refine foldl_maskPair_false_mono nrm i_d s0 c t0 d n_t rest _ _ _ _ _ _ ?_
        exact maskSet_false_mono _ _ _ _ _ _ _ _ _ _ _
          (maskSet_apply_self _ _ _ _ _ _)
    · exact ih _ hj2

end MaskFold

section MaskOuter

variable (nrm : Bool) (i_d s0 : ℕ) (chans : List ℕ) (t0 d n_t : ℕ) (aSz : ℕ)

lemma maskUpdate_eq_fold (m : Mask) (nc : ℕ) :
    maskUpdate m nrm i_d s0 chans nc aSz t0 d n_t =
      (List.range nc).foldl (fun acc k =>
        (List.range aSz).foldl (fun acc2 j =>
          maskSet (maskSet acc2 nrm i_d s0 (chans.getD k 0) (bwdIdx t0 j d n_t))
            nrm i_d s0 (chans.getD k 0) (fwdIdx t0 j d n_t)) acc) m := rfl

lemma foldl_maskOuter_ne (ks : List ℕ) (m : Mask) (nr : Bool) (id s c' t : ℕ)
    (h : ∀ k ∈ ks, ∀ j ∈ List.range aSz,
      ¬(nr = nrm ∧ id = i_d ∧ s = s0 ∧ c' = chans.getD k 0 ∧ t = fwdIdx t0 j d n_t) ∧
      ¬(nr = nrm ∧ id = i_d ∧ s = s0 ∧ c' = chans.getD k 0 ∧ t = bwdIdx t0 j d n_t)) :
    (ks.foldl (fun acc k =>
      (List.range aSz).foldl (fun acc2 j =>
        maskSet (maskSet acc2 nrm i_d s0 (chans.getD k 0) (bwdIdx t0 j d n_t))
          nrm i_d s0 (chans.getD k 0) (fwdIdx t0 j d n_t)) acc) m) nr id s c' t =
      m nr id s c' t := by
  induction ks generalizing m with
  | nil => rfl
  | cons a rest ih =>
    rw [List.foldl_cons, ih _ (fun k hk => h k (List.mem_cons_of_mem a hk))]
    exact foldl_maskPair_ne nrm i_d s0 (chans.getD a 0) t0 d n_t _ m nr id s c' t
      (h a (List.mem_cons_self a rest))

lemma foldl_maskOuter_false_mono (ks : List ℕ) (m : Mask) (nr : Bool)
    (id s c' t : ℕ) (h : m nr id s c' t = false) :
    (ks.foldl (fun acc k =>
      (List.range aSz).foldl (fun acc2 j =>
        maskSet (maskSet acc2 nrm i_d s0 (chans.getD k 0) (bwdIdx t0 j d n_t))
          nrm i_d s0 (chans.getD k 0) (fwdIdx t0 j d n_t)) acc) m) nr id s c' t =
      false := by
  induction ks generalizing m with
  | nil => exact h
  | cons a rest ih =>
    rw [List.foldl_cons]
    exact ih _ (foldl_maskPair_false_mono nrm i_d s0 (chans.getD a 0) t0 d n_t _ _ _ _ _ _ _ h)

lemma foldl_maskOuter_sets (ks : List ℕ) (m : Mask) (k0 j0 : ℕ)
    (hk : k0 ∈ ks) (hj : j0 ∈ List.range aSz) :
    (ks.foldl (fun acc k =>
      (List.range aSz).foldl (fun acc2 j =>
        maskSet (maskSet acc2 nrm i_d s0 (chans.getD k 0) (bwdIdx t0 j d n_t))
          nrm i_d s0 (chans.getD k 0) (fwdIdx t0 j d n_t)) acc) m)
      nrm i_d s0 (chans.getD k0 0) (fwdIdx t0 j0 d n_t) = false ∧
    (ks.foldl (fun acc k =>
      (List.range aSz).foldl (fun acc2 j =>
        maskSet (maskSet acc2 nrm i_d s0 (chans.getD k 0) (bwdIdx t0 j d n_t))
          nrm i_d s0 (chans.getD k 0) (fwdIdx t0 j d n_t)) acc) m)
      nrm i_d s0 (chans.getD k0 0) (bwdIdx t0 j0 d n_t) = false := by
  induction ks generalizing m with
  | nil => cases hk
  | cons a rest ih =>
    rw [List.foldl_cons]
    rcases List.mem_cons.mp hk with rfl | hk2
    · have hs := foldl_maskPair_sets nrm i_d s0 (chans.getD k0 0) t0 d n_t
        (List.range aSz) m j0 hj
      exact ⟨foldl_maskOuter_false_mono nrm i_d s0 chans t0 d n_t aSz rest _ _ _ _ _ _ hs.1,
        foldl_maskOuter_false_mono nrm i_d s0 chans t0 d n_t aSz rest _ _ _ _ _ _ hs.2⟩
    · exact ih _ hk2

end MaskOuter

/-! ### Sampler lemmas (for C5 and C6) -/

/-- The `int64(2 ** upper_bounds[i])` truncation recovers exactly the
integer quotient `floor_divide(n_timestamps - 1, lengths[i] - 1)`. -/
lemma floor_two_rpow_ub (n_t L : ℕ) (hL : 2 ≤ L) (hLn : L ≤ n_t) :
    ⌊(2 : ℝ) ^ upper_bound n_t L⌋ = (((n_t - 1) / (L - 1) : ℕ) : ℤ) := by
  have hq : 1 ≤ (n_t - 1) / (L - 1) :=
    (Nat.le_div_iff_mul_le (by omega)).mpr (by omega)
  have hqpos : (0 : ℝ) < (((n_t - 1) / (L - 1) : ℕ) : ℝ) := by
    exact_mod_cast Nat.lt_of_lt_of_le Nat.zero_lt_one hq
  rw [upper_bound, Real.rpow_logb (by norm_num) (by norm_num) hqpos,
    Int.floor_natCast]

lemma one_le_logUniformDil (u : ℝ) (hu0 : 0 ≤ u) : 1 ≤ logUniformDil u := by
  rw [logUniformDil, Int.le_floor]
  have h := (Real.rpow_le_rpow_left_iff (show (1:ℝ) < 2 by norm_num)).mpr hu0
  rw [Real.rpow_zero] at h
  exact_mod_cast h

lemma logUniformDil_le (n_t L : ℕ) (u : ℝ) (hL : 2 ≤ L) (hLn : L ≤ n_t)
    (hub : u ≤ upper_bound n_t L) :
    logUniformDil u ≤ (((n_t - 1) / (L - 1) : ℕ) : ℤ) := by
  rw [logUniformDil, ← floor_two_rpow_ub n_t L hL hLn]
  exact Int.floor_le_floor
    ((Real.rpow_le_rpow_left_iff (show (1:ℝ) < 2 by norm_num)).mpr hub)

lemma primeSchemeDil_bounds (n_t L d : ℕ) (hL : 2 ≤ L) (hLn : L ≤ n_t)
    (h : primeSchemeDil n_t L d) : 1 ≤ d ∧ d ≤ (n_t - 1) / (L - 1) := by
  rcases h with ⟨hp, hle⟩
  rw [floor_two_rpow_ub n_t L hL hLn] at hle
  exact ⟨le_trans one_le_two hp.two_le, by exact_mod_cast hle⟩

lemma upper_bound_50_8 : upper_bound 50 8 = Real.logb 2 7 := by
  rw [upper_bound]
  norm_num

lemma primeSchemeDil_50_8_7 : primeSchemeDil 50 8 7 := by
  refine ⟨by norm_num, ?_⟩
  rw [floor_two_rpow_ub 50 8 (by norm_num) (by norm_num)]

/-! ## Claim theorems -/

/-- C2: for every input tensor `X` and every finalized shapelet set `S` —
including the zero-shapelet set — the Applier returns a matrix with exactly
`X.length` rows, each of length `3 * m` where `m` is the retained shapelet
count (`len(lengths)`). -/
theorem C2_applier_output_shape (dist : List ℚ → List ℚ → ℚ) (sq : ℚ → ℚ)
    (phase : Bool) (X : List (List (List ℚ))) (S : MShapelets) :
    (M_SL_apply_all_shapelets dist sq phase X S).length = X.length ∧
    ∀ row ∈ M_SL_apply_all_shapelets dist sq phase X S,
      row.length = 3 * S.lengths.length := by
  constructor
  · simp [M_SL_apply_all_shapelets]
  · intro row hrow
    rw [M_SL_apply_all_shapelets] at hrow
    rcases List.mem_map.mp hrow with ⟨sample, _, rfl⟩
    rw [foldl_applyGroup_length]
    exact List.length_replicate _ _

/-- Witness for C2 at a concrete input: two samples and the zero-shapelet
set give a 2-row matrix whose first row has length `3 * 0 = 0`. -/
theorem C2_applier_output_shape_witness :
    (M_SL_apply_all_shapelets dist0 sq0 false [[[1, 2]], [[3, 4]]] emptyShapelets).length = 2 ∧
    ((M_SL_apply_all_shapelets dist0 sq0 false [[[1, 2]], [[3, 4]]] emptyShapelets).getD 0 []).length =
      3 * emptyShapelets.lengths.length :=
  ⟨(C2_applier_output_shape dist0 sq0 false [[[1, 2]], [[3, 4]]] emptyShapelets).1,
   (C2_applier_output_shape dist0 sq0 false [[[1, 2]], [[3, 4]]] emptyShapelets).2
     _ (by decide)⟩

/-- C3: the Applier writes the three features of the shapelet with original
index `i` into output columns `3*i`, `3*i+1`, `3*i+2` of the feature row,
where the features are exactly the per-shapelet reference semantics
`shapeletFeatures` (own stride view, z-normalised iff its flag is set) —
regardless of how the `(length, dilation)` and `normalize` grouping reorders
the computation. -/
theorem C3_applier_preserves_original_indices (dist : List ℚ → List ℚ → ℚ)
    (sq : ℚ → ℚ) (phase : Bool) (X : List (List (List ℚ))) (S : MShapelets)
    (s i : ℕ) (hdl : S.dilations.length = S.lengths.length)
    (hs : s < X.length) (hi : i < S.lengths.length) :
    [((M_SL_apply_all_shapelets dist sq phase X S).getD s []).getD (3 * i) 0,
     ((M_SL_apply_all_shapelets dist sq phase X S).getD s []).getD (3 * i + 1) 0,
     ((M_SL_apply_all_shapelets dist sq phase X S).getD s []).getD (3 * i + 2) 0] =
      shapeletFeatures dist sq phase (X.getD s []) S i := by
  have e0 := apply_all_row_getD dist sq phase X S s i 0 (by omega) hdl hs hi
  have e1 := apply_all_row_getD dist sq phase X S s i 1 (by omega) hdl hs hi
  have e2 := apply_all_row_getD dist sq phase X S s i 2 (by omega) hdl hs hi
  rw [show 3 * i = 3 * i + 0 by rfl, e0, e1, e2]
  exact (eq_triple_of_length_three _ (shapeletFeatures_length dist sq phase _ S i)).symm

/-- C5 counterexample: with `n_timestamps = 50` and `L = 8`, the quotient is
`floor(49/7) = 7`, so under the prime scheme the dilation 7 is in the
sampling support (`7` is prime and `7 <= int64(2**log2(7))`), yet
`7 > 2^floor(log2(7)) = 4` — the claim's upper bound
`2^floor(log2((n_timestamps-1)/(L-1)))` is violated. -/
theorem C5_claim_bound_counterexample :
    primeSchemeDil 50 8 7 ∧ ¬((7 : ℝ) ≤ specDilBound 50 8) := by
  refine ⟨primeSchemeDil_50_8_7, ?_⟩
  have hfloor : ⌊upper_bound 50 8⌋ = 2 := by
    rw [upper_bound_50_8, Int.floor_eq_iff]
    constructor
    · rw [show ((2 : ℤ) : ℝ) = ((2 : ℕ) : ℝ) by norm_num]
      rw [Real.le_logb_iff_rpow_le (by norm_num) (by norm_num),
        Real.rpow_natCast]
      norm_num
    · rw [show ((2 : ℤ) : ℝ) + 1 = ((3 : ℕ) : ℝ) by norm_num]
      rw [Real.logb_lt_iff_lt_rpow (by norm_num) (by norm_num),
        Real.rpow_natCast]
      norm_num
  rw [specDilBound, hfloor]
  norm_num

/-- C5 (amended): under both sampling schemes, every drawn dilation `d` for a
shapelet of length `L` satisfies `1 <= d <= floor((n_timestamps-1)/(L-1))`
(the claim's bound `2^floor(log2(...))` is too tight; the receptive-field
quotient itself is the correct bound). -/
theorem C5_dilation_bounds_amended (n_t L d : ℕ) (u : ℝ)
    (hL : 2 ≤ L) (hLn : L ≤ n_t) :
    (primeSchemeDil n_t L d → 1 ≤ d ∧ d ≤ (n_t - 1) / (L - 1)) ∧
    (0 ≤ u → u ≤ upper_bound n_t L →
      1 ≤ logUniformDil u ∧
      logUniformDil u ≤ (((n_t - 1) / (L - 1) : ℕ) : ℤ)) :=
  ⟨fun h => primeSchemeDil_bounds n_t L d hL hLn h,
   fun hu0 hub => ⟨one_le_logUniformDil u hu0, logUniformDil_le n_t L u hL hLn hub⟩⟩

/-- Witness for C5 (amended) at `n_timestamps = 50`, `L = 8`, prime dilation
7 and log-uniform draw `u = 0`. -/
theorem C5_dilation_bounds_amended_witness :
    (1 ≤ 7 ∧ 7 ≤ (50 - 1) / (8 - 1)) ∧
    (1 ≤ logUniformDil 0 ∧
      logUniformDil 0 ≤ (((50 - 1) / (8 - 1) : ℕ) : ℤ)) :=
  ⟨(C5_dilation_bounds_amended 50 8 7 0 (by norm_num) (by norm_num)).1
      primeSchemeDil_50_8_7,
   (C5_dilation_bounds_amended 50 8 7 0 (by norm_num) (by norm_num)).2
      le_rfl
      (by rw [upper_bound_50_8]; exact Real.logb_nonneg (by norm_num) (by norm_num))⟩

/-- C6: every generated shapelet has `1 <= length <= max(shapelet_sizes)`
and `dilation >= 1`, and (under `use_phase = false`) the dilated receptive
field fits: `(length - 1) * dilation < n_timestamps`, under both dilation
sampling schemes. -/
theorem C6_length_dilation_bounds (sizes : List ℕ) (n_t L dp dl : ℕ) (u : ℝ)
    (hmem : L ∈ sizes) (hpos : ∀ s ∈ sizes, 1 ≤ s) (hLn : L ≤ n_t)
    (hnt : 1 ≤ n_t) :
    (1 ≤ L ∧ L ≤ natListMax sizes) ∧
    (primeSchemeDil n_t L dp → 1 ≤ dp ∧ (L - 1) * dp < n_t) ∧
    (0 ≤ u → u ≤ upper_bound n_t L → (dl : ℤ) = logUniformDil u →
      1 ≤ dl ∧ (L - 1) * dl < n_t) := by
  refine ⟨⟨hpos L hmem, le_foldr_max sizes L hmem⟩, ?_, ?_⟩
  · intro h
    by_cases hL2 : 2 ≤ L
    · obtain ⟨h1, h2⟩ := primeSchemeDil_bounds n_t L dp hL2 hLn h
      refine ⟨h1, ?_⟩
      have h3 : dp * (L - 1) ≤ n_t - 1 :=
        (Nat.le_div_iff_mul_le (by omega)).mp h2
      calc (L - 1) * dp = dp * (L - 1) := Nat.mul_comm _ _
        _ ≤ n_t - 1 := h3
        _ < n_t := by omega
    · have hL1 : L = 1 := by have := hpos L hmem; omega
      refine ⟨le_trans one_le_two h.1.two_le, ?_⟩
      rw [hL1]
      simpa using hnt
  · intro hu0 hub hdl
    by_cases hL2 : 2 ≤ L
    · have h1 : (1 : ℤ) ≤ (dl : ℤ) := hdl ▸ one_le_logUniformDil u hu0
      have h2 : (dl : ℤ) ≤ (((n_t - 1) / (L - 1) : ℕ) : ℤ) :=
        hdl ▸ logUniformDil_le n_t L u hL2 hLn hub
      have h2' : dl ≤ (n_t - 1) / (L - 1) := by exact_mod_cast h2
      have h3 : dl * (L - 1) ≤ n_t - 1 :=
        (Nat.le_div_iff_mul_le (by omega)).mp h2'
      refine ⟨by exact_mod_cast h1, ?_⟩
      calc (L - 1) * dl = dl * (L - 1) := Nat.mul_comm _ _
        _ ≤ n_t - 1 := h3
        _ < n_t := by omega
    · have hL1 : L = 1 := by have := hpos L hmem; omega
      have h1 : (1 : ℤ) ≤ (dl : ℤ) := hdl ▸ one_le_logUniformDil u hu0
      refine ⟨by exact_mod_cast h1, ?_⟩
      rw [hL1]
      simpa using hnt

/-- Witness for C6 at `sizes = [8]`, `n_timestamps = 50`, prime dilation 7,
log-uniform draw `u = 0` (dilation 1). -/
theorem C6_length_dilation_bounds_witness :
    ((1 ≤ 8 ∧ 8 ≤ natListMax [8]) ∧
      (1 ≤ 7 ∧ (8 - 1) * 7 < 50) ∧
      (1 ≤ 1 ∧ (8 - 1) * 1 < 50)) :=
  ⟨(C6_length_dilation_bounds [8] 50 8 7 1 0 (by decide) (by decide)
      (by decide) (by decide)).1,
   (C6_length_dilation_bounds [8] 50 8 7 1 0 (by decide) (by decide)
      (by decide) (by decide)).2.1 primeSchemeDil_50_8_7,
   (C6_length_dilation_bounds [8] 50 8 7 1 0 (by decide) (by decide)
      (by decide) (by decide)).2.2 le_rfl
      (by rw [upper_bound_50_8]; exact Real.logb_nonneg (by norm_num) (by norm_num))
      (by rw [logUniformDil, Real.rpow_zero]; norm_num)⟩

/-- C8: the modelled configuration validation rejects every invalid scalar
configuration — an empty `shapelet_sizes`, a size of 1 (which would make
`lengths - 1 = 0` the divisor of the dilation bound), or `max_channels`
exceeding the available channels — before generation begins; and an accepted
configuration guarantees the two generation-loop preconditions: every
length's divisor `s - 1` is at least 1, and every per-shapelet channel count
(at most `max_channels`) can be drawn without replacement from `n_features`
channels. -/
theorem C8_config_rejected_before_generation (shapelet_sizes : List ℕ)
    (n_features max_channels : ℕ) :
    ((shapelet_sizes = [] ∨ (∃ s ∈ shapelet_sizes, s ≤ 1) ∨
        n_features < max_channels) →
      M_config_ok shapelet_sizes n_features max_channels = false) ∧
    (M_config_ok shapelet_sizes n_features max_channels = true →
      shapelet_sizes ≠ [] ∧ (∀ s ∈ shapelet_sizes, 1 ≤ s - 1) ∧
      (∀ nc, nc ≤ max_channels → nc ≤ n_features)) := by
  have hiff : M_config_ok shapelet_sizes n_features max_channels = true ↔
      shapelet_sizes ≠ [] ∧ (∀ s ∈ shapelet_sizes, 2 ≤ s) ∧
        max_channels ≤ n_features := by
    simp [M_config_ok, List.all_eq_true, List.isEmpty_iff, and_assoc]
  constructor
  · intro h
    cases hval : M_config_ok shapelet_sizes n_features max_channels with
    | false => rfl
    | true =>
      rcases hiff.mp hval with ⟨h1, h2, h3⟩
      rcases h with rfl | ⟨s, hs, hs1⟩ | h4
      · exact absurd rfl h1
      · have := h2 s hs
        omega
      · omega
  · intro hval
    rcases hiff.mp hval with ⟨h1, h2, h3⟩
    exact ⟨h1, fun s hs => by have := h2 s hs; omega,
      fun nc hnc => le_trans hnc h3⟩

/-- Witness for C8 at concrete configurations: the three invalid classes are
rejected and a valid one yields the generation preconditions. -/
theorem C8_config_rejected_before_generation_witness :
    M_config_ok [1, 9] 3 2 = false ∧
    M_config_ok [] 3 2 = false ∧
    M_config_ok [9] 3 5 = false ∧
    ([9] ≠ ([] : List ℕ) ∧ (∀ s ∈ ([9] : List ℕ), 1 ≤ s - 1) ∧
      (∀ nc, nc ≤ 2 → nc ≤ 3)) :=
  ⟨(C8_config_rejected_before_generation [1, 9] 3 2).1
      (Or.inr (Or.inl ⟨1, by decide, by decide⟩)),
   (C8_config_rejected_before_generation [] 3 2).1 (Or.inl rfl),
   (C8_config_rejected_before_generation [9] 3 5).1 (Or.inr (Or.inr (by decide))),
   (C8_config_rejected_before_generation [9] 3 2).2 (by decide)⟩

/-- C4: the Applier is a pure function of `(X, ShapeletSet)`: two calls with
the same arguments are bit-identical; rows are computed per sample with no
state carried across samples or calls (appending samples appends rows); and a
group's unit of work — including the z-normalisation the code performs in
place on the group's local strides buffer — changes only the output columns
of that group's own shapelets, so it is not observable by any other
(sample, group) unit. -/
theorem C4_applier_pure_and_confined (dist : List ℚ → List ℚ → ℚ) (sq : ℚ → ℚ)
    (phase : Bool) (X X₂ : List (List (List ℚ))) (S : MShapelets) :
    M_SL_apply_all_shapelets dist sq phase X S =
      M_SL_apply_all_shapelets dist sq phase X S ∧
    M_SL_apply_all_shapelets dist sq phase (X ++ X₂) S =
      M_SL_apply_all_shapelets dist sq phase X S ++
        M_SL_apply_all_shapelets dist sq phase X₂ S ∧
    (∀ (sample : List (List ℚ)) (row : List ℚ) (p : ℕ × ℕ) (i k : ℕ),
      k < 3 → i ∉ groupIdx S p →
      (applyGroup dist sq phase sample S row p).getD (3 * i + k) 0 =
        row.getD (3 * i + k) 0) := by
  refine ⟨rfl, ?_, ?_⟩
  · simp only [M_SL_apply_all_shapelets]
    exact List.map_append _ X X₂
  · intro sample row p i k hk hnm
    exact applyGroup_getD_notMem dist sq phase sample S row p i k hk hnm

/-- Witness for C4 at a concrete input: a group the single shapelet does not
belong to leaves its columns untouched. -/
theorem C4_applier_pure_and_confined_witness :
    M_SL_apply_all_shapelets dist0 sq0 false ([[[1, 2]]] ++ [[[3, 4]]]) oneShapelet =
      M_SL_apply_all_shapelets dist0 sq0 false [[[1, 2]]] oneShapelet ++
        M_SL_apply_all_shapelets dist0 sq0 false [[[3, 4]]] oneShapelet ∧
    (applyGroup dist0 sq0 false [[1, 2]] oneShapelet [0, 0, 0] (2, 1)).getD 0 0 =
      ([0, 0, 0] : List ℚ).getD 0 0 :=
  ⟨(C4_applier_pure_and_confined dist0 sq0 false [[[1, 2]]] [[[3, 4]]] oneShapelet).2.1,
   (C4_applier_pure_and_confined dist0 sq0 false [] [] oneShapelet).2.2
     [[1, 2]] [0, 0, 0] (2, 1) 0 0 (by decide) (by decide)⟩

/-- C9: the mask update after placing one shapelet changes entries only
inside the `(normalize, dilation-group)` slice of that shapelet, only for the
anchor sample and its drawn channels, and only at the
`alpha_size = length - int(max(1, (1-alpha)*min_l))` dilation-strided
positions forward and backward from the anchor index taken modulo
`n_timestamps` — every other mask entry is unchanged, and the listed
positions are indeed marked ineligible. -/
theorem C9_mask_update_frame_effect (m : Mask) (nrm : Bool) (i_d s0 : ℕ)
    (chans : List ℕ) (nc : ℕ) (L minL : ℕ) (alpha : ℚ) (t0 d n_t : ℕ) :
    (∀ (nr : Bool) (id s c t : ℕ),
      (nr ≠ nrm ∨ id ≠ i_d ∨ s ≠ s0 ∨ (∀ k, k < nc → c ≠ chans.getD k 0) ∨
        (∀ j, j < alphaSizeOf L minL alpha →
          t ≠ fwdIdx t0 j d n_t ∧ t ≠ bwdIdx t0 j d n_t)) →
      maskUpdate m nrm i_d s0 chans nc (alphaSizeOf L minL alpha) t0 d n_t
        nr id s c t = m nr id s c t) ∧
    (∀ k, k < nc → ∀ j, j < alphaSizeOf L minL alpha →
      maskUpdate m nrm i_d s0 chans nc (alphaSizeOf L minL alpha) t0 d n_t
        nrm i_d s0 (chans.getD k 0) (fwdIdx t0 j d n_t) = false ∧
      maskUpdate m nrm i_d s0 chans nc (alphaSizeOf L minL alpha) t0 d n_t
        nrm i_d s0 (chans.getD k 0) (bwdIdx t0 j d n_t) = false) := by
  constructor
  · intro nr id s c t h
    rw [maskUpdate_eq_fold]
    refine foldl_maskOuter_ne nrm i_d s0 chans t0 d n_t _ _ m nr id s c t ?_
    intro k hk j hj
    have hkn := List.mem_range.mp hk
    have hjn := List.mem_range.mp hj
    rcases h with h | h | h | h | h
    · exact ⟨fun hc => h hc.1, fun hc => h hc.1⟩
    · exact ⟨fun hc => h hc.2.1, fun hc => h hc.2.1⟩
    · exact ⟨fun hc => h hc.2.2.1, fun hc => h hc.2.2.1⟩
    · exact ⟨fun hc => h k hkn hc.2.2.2.1, fun hc => h k hkn hc.2.2.2.1⟩
    · exact ⟨fun hc => (h j hjn).1 hc.2.2.2.2, fun hc => (h j hjn).2 hc.2.2.2.2⟩
  · intro k hk j hj
    rw [maskUpdate_eq_fold]
    exact foldl_maskOuter_sets nrm i_d s0 chans t0 d n_t _ _ m k j
      (List.mem_range.mpr hk) (List.mem_range.mpr hj)

/-- Witness for C9 at a concrete input: channel list `[0]`, `alpha = 1`
(`alpha_size = L - 1 = 2`): an entry of another sample is untouched, and the
forward position `(0 + 1*1) % 4 = 1` of the anchor sample is cleared. -/
theorem C9_mask_update_frame_effect_witness :
    maskUpdate (fun _ _ _ _ _ => true) false 0 0 [0] 1 (alphaSizeOf 3 3 1) 0 1 4
      false 0 1 0 0 = true ∧
    maskUpdate (fun _ _ _ _ _ => true) false 0 0 [0] 1 (alphaSizeOf 3 3 1) 0 1 4
      false 0 0 (([0] : List ℕ).getD 0 0) (fwdIdx 0 1 1 4) = false :=
  ⟨(C9_mask_update_frame_effect (fun _ _ _ _ _ => true) false 0 0 [0] 1 3 3 1 0 1 4).1
      false 0 1 0 0 (Or.inr (Or.inr (Or.inl (by decide)))),
   ((C9_mask_update_frame_effect (fun _ _ _ _ _ => true) false 0 0 [0] 1 3 3 1 0 1 4).2
      0 (by decide) 1 (by norm_num [alphaSizeOf])).1⟩

/-- C1 counterexample: with two retained shapelets of dilations `[2, 1]`
(not grouped in original order), the Generator writes the flat `values`
buffer in unique-dilation iteration order — shapelet 1 (dilation 1) first,
then shapelet 0 (dilation 2) — while the parameter arrays keep the original
order.  Slicing `values` by original-order prefix sums (as the claim and the
Applier's `a1 = cumsum(n_channels*lengths)` do) therefore reads shapelet 1's
vector `[10, 20]` where shapelet 0's vector `[10, 30]` is expected. -/
theorem C1_generator_values_group_order_bug :
    (M_SL_generate_shapelet sq0 false 4 0 [[[10, 20, 30, 40]]] [2, 2] [2, 1]
      [false, false] [1, 1] choice0).lengths = [2, 2] ∧
    (M_SL_generate_shapelet sq0 false 4 0 [[[10, 20, 30, 40]]] [2, 2] [2, 1]
      [false, false] [1, 1] choice0).dilations = [2, 1] ∧
    (M_SL_generate_shapelet sq0 false 4 0 [[[10, 20, 30, 40]]] [2, 2] [2, 1]
      [false, false] [1, 1] choice0).n_channels = [1, 1] ∧
    (M_SL_generate_shapelet sq0 false 4 0 [[[10, 20, 30, 40]]] [2, 2] [2, 1]
      [false, false] [1, 1] choice0).values = [10, 20, 10, 30] ∧
    get_subsequence sq0 [10, 20, 30, 40] 0 2 2 false false = [10, 30] ∧
    List.take 2 (M_SL_generate_shapelet sq0 false 4 0 [[[10, 20, 30, 40]]]
      [2, 2] [2, 1] [false, false] [1, 1] choice0).values ≠
      get_subsequence sq0 [10, 20, 30, 40] 0 2 2 false false := by
  have hk1 := stepKept_alpha_zero false 4 [[[10, 20, 30, 40]]] [2, 2] [2, 1]
    [false, false] [1, 1] choice0 0 genInit 1 (by decide) (by decide)
  have hk2 := stepKept_alpha_zero false 4 [[[10, 20, 30, 40]]] [2, 2] [2, 1]
    [false, false] [1, 1] choice0 1
    (genStep sq0 false 4 0 [[[10, 20, 30, 40]]] [2, 2] [2, 1] [false, false]
      [1, 1] choice0 0 2 genInit 1) 0 (by decide) (by decide)
  have hloop : genLoop sq0 false 4 0 [[[10, 20, 30, 40]]] [2, 2] [2, 1]
      [false, false] [1, 1] choice0 =
      genStep sq0 false 4 0 [[[10, 20, 30, 40]]] [2, 2] [2, 1] [false, false]
        [1, 1] choice0 1 2
        (genStep sq0 false 4 0 [[[10, 20, 30, 40]]] [2, 2] [2, 1] [false, false]
          [1, 1] choice0 0 2 genInit 1) 0 := by
    rw [genLoop_eq_genFold]
    rfl
  have hvals : (genLoop sq0 false 4 0 [[[10, 20, 30, 40]]] [2, 2] [2, 1]
      [false, false] [1, 1] choice0).valuesAcc = [10, 20, 10, 30] := by
    rw [hloop,
      genStep_valuesAcc_kept sq0 false 4 0 [[[10, 20, 30, 40]]] [2, 2] [2, 1]
        [false, false] [1, 1] choice0 1 2 _ 0 hk2,
      genStep_valuesAcc_kept sq0 false 4 0 [[[10, 20, 30, 40]]] [2, 2] [2, 1]
        [false, false] [1, 1] choice0 0 2 genInit 1 hk1]
    decide
  have hall : ∀ j, (genLoop sq0 false 4 0 [[[10, 20, 30, 40]]] [2, 2] [2, 1]
      [false, false] [1, 1] choice0).ret j = true := by
    rw [genLoop_eq_genFold]
    refine genFold_ret_all_true sq0 false 4 [[[10, 20, 30, 40]]] [2, 2] [2, 1]
      [false, false] [1, 1] choice0 _ genInit (fun _ => rfl) (by decide) ?_
    intro t ht
    rw [show genSchedule [2, 1] [2, 2] = [(0, 2, 1), (1, 2, 0)] from rfl] at ht
    simp only [List.mem_cons, List.not_mem_nil, or_false] at ht
    rcases ht with rfl | rfl <;> decide
  have hret : retFilter (genLoop sq0 false 4 0 [[[10, 20, 30, 40]]] [2, 2] [2, 1]
      [false, false] [1, 1] choice0).ret (([2, 2] : List ℕ).length) = [0, 1] := by
    rw [retFilter, List.filter_eq_self.mpr (fun a _ => hall a)]
    rfl
  refine ⟨?_, ?_, ?_, ?_, by decide, ?_⟩
  · simp only [M_SL_generate_shapelet]
    rw [hret]
    rfl
  · simp only [M_SL_generate_shapelet]
    rw [hret]
    rfl
  · simp only [M_SL_generate_shapelet]
    rw [hret]
    rfl
  · simp only [M_SL_generate_shapelet]
    exact hvals
  · simp only [M_SL_generate_shapelet]
    rw [hvals]
    decide

/-- C7: with `alpha = 0`, over a non-empty dataset, every shapelet whose
sampling region is non-empty (`d_shape >= 1`) passes the eligibility test, so
nothing is dropped and the retained count equals the requested
`n_shapelets`. -/
theorem C7_alpha_zero_drops_nothing (sq : ℚ → ℚ) (phase : Bool) (n_t : ℕ)
    (X : List (List (List ℚ)))
    (lengths dilations : List ℕ) (normalize : List Bool) (n_channels : List ℕ)
    (C : ℕ → GenChoice)
    (hX : 0 < X.length)
    (hd : ∀ i, i < lengths.length →
      0 < numPos n_t (lengths.getD i 0) (dilations.getD i 0) phase) :
    (M_SL_generate_shapelet sq phase n_t 0 X lengths dilations normalize
      n_channels C).lengths.length = lengths.length := by
  have hall : ∀ j, (genLoop sq phase n_t 0 X lengths dilations normalize
      n_channels C).ret j = true := by
    rw [genLoop_eq_genFold]
    refine genFold_ret_all_true sq phase n_t X lengths dilations normalize
      n_channels C (genSchedule dilations lengths) genInit (fun _ => rfl) hX ?_
    intro t ht
    have hmem : t.2.2 ∈ (genSchedule dilations lengths).map (fun t => t.2.2) :=
      List.mem_map_of_mem _ ht
    rw [genSchedule_indices, allProcessed] at hmem
    rcases List.mem_flatMap.mp hmem with ⟨d, _, hmem2⟩
    exact hd _ ((mem_idsWithDil dilations lengths.length d t.2.2).mp hmem2).1
  have hflt : retFilter (genLoop sq phase n_t 0 X lengths dilations normalize
      n_channels C).ret lengths.length = List.range lengths.length := by
    rw [retFilter]
    exact List.filter_eq_self.mpr (fun a _ => hall a)
  simp [M_SL_generate_shapelet, hflt]

/-- Witness for C7 at a concrete input: the two-shapelet run over one sample
of four timestamps retains both requested shapelets. -/
theorem C7_alpha_zero_drops_nothing_witness :
    (M_SL_generate_shapelet sq0 false 4 0 [[[10, 20, 30, 40]]] [2, 2] [2, 1]
      [false, false] [1, 1] choice0).lengths.length = 2 :=
  C7_alpha_zero_drops_nothing sq0 false 4 [[[10, 20, 30, 40]]] [2, 2] [2, 1]
    [false, false] [1, 1] choice0 (by decide) (by decide)

/-- C10: every value returned by the Generator has its five parameter arrays
of one common length `m`, `channel_ids` of length `sum(n_channels)`, and
`values` of length `sum(n_channels * lengths)` over the retained shapelets,
so the flat buffers can be re-sliced per shapelet by prefix sums. -/
theorem C10_generator_buffer_sizes (sq : ℚ → ℚ) (phase : Bool) (n_t : ℕ)
    (alpha : ℚ) (X : List (List (List ℚ)))
    (lengths dilations : List ℕ) (normalize : List Bool) (n_channels : List ℕ)
    (C : ℕ → GenChoice) (R : MShapelets)
    (hdl : dilations.length = lengths.length)
    (hR : R = M_SL_generate_shapelet sq phase n_t alpha X lengths dilations
      normalize n_channels C) :
    R.lengths.length = R.dilations.length ∧
    R.lengths.length = R.threshold.length ∧
    R.lengths.length = R.normalize.length ∧
    R.lengths.length = R.n_channels.length ∧
    R.channel_ids.length = R.n_channels.sum ∧
    R.values.length = ((R.n_channels.zip R.lengths).map (fun p => p.1 * p.2)).sum := by
  subst hR
  have hsch : ([] : List ℕ) ++ (genSchedule dilations lengths).map (fun t => t.2.2) =
      allProcessed dilations lengths.length := by
    rw [List.nil_append, genSchedule_indices]
  have hperm := allProcessed_perm dilations lengths.length hdl
  have hinv := gen_fold_invariant sq phase n_t alpha X lengths dilations normalize
    n_channels C (genSchedule dilations lengths) genInit []
    (by rw [hsch]; exact hperm.nodup_iff.mpr (List.nodup_range _))
    (fun j _ => rfl) rfl rfl
  rcases hinv with ⟨_, hV, hC⟩
  rw [← genLoop_eq_genFold, hsch] at hV hC
  refine ⟨by simp [M_SL_generate_shapelet], by simp [M_SL_generate_shapelet],
    by simp [M_SL_generate_shapelet], by simp [M_SL_generate_shapelet], ?_, ?_⟩
  · show (genLoop sq phase n_t alpha X lengths dilations normalize n_channels C).chanAcc.length = _
    rw [hC,
      (((hperm.filter
        (genLoop sq phase n_t alpha X lengths dilations normalize n_channels C).ret)).map
          (fun i => n_channels.getD i 0)).sum_eq]
    rfl
  · show (genLoop sq phase n_t alpha X lengths dilations normalize n_channels C).valuesAcc.length = _
    rw [hV,
      (((hperm.filter
        (genLoop sq phase n_t alpha X lengths dilations normalize n_channels C).ret)).map
          (fun i => n_channels.getD i 0 * lengths.getD i 0)).sum_eq]
    simp only [M_SL_generate_shapelet]
    rw [List.zip_map', List.map_map]
    rfl

/-- Witness for C10 at a concrete input: the two-shapelet run used throughout
the concrete examples. -/
theorem C10_generator_buffer_sizes_witness :
    (M_SL_generate_shapelet sq0 false 4 0 [[[10, 20, 30, 40]]] [2, 2] [2, 1]
      [false, false] [1, 1] choice0).lengths.length =
      (M_SL_generate_shapelet sq0 false 4 0 [[[10, 20, 30, 40]]] [2, 2] [2, 1]
        [false, false] [1, 1] choice0).dilations.length ∧
    (M_SL_generate_shapelet sq0 false 4 0 [[[10, 20, 30, 40]]] [2, 2] [2, 1]
      [false, false] [1, 1] choice0).lengths.length =
      (M_SL_generate_shapelet sq0 false 4 0 [[[10, 20, 30, 40]]] [2, 2] [2, 1]
        [false, false] [1, 1] choice0).threshold.length ∧
    (M_SL_generate_shapelet sq0 false 4 0 [[[10, 20, 30, 40]]] [2, 2] [2, 1]
      [false, false] [1, 1] choice0).lengths.length =
      (M_SL_generate_shapelet sq0 false 4 0 [[[10, 20, 30, 40]]] [2, 2] [2, 1]
        [false, false] [1, 1] choice0).normalize.length ∧
    (M_SL_generate_shapelet sq0 false 4 0 [[[10, 20, 30, 40]]] [2, 2] [2, 1]
      [false, false] [1, 1] choice0).lengths.length =
      (M_SL_generate_shapelet sq0 false 4 0 [[[10, 20, 30, 40]]] [2, 2] [2, 1]
        [false, false] [1, 1] choice0).n_channels.length ∧
    (M_SL_generate_shapelet sq0 false 4 0 [[[10, 20, 30, 40]]] [2, 2] [2, 1]
      [false, false] [1, 1] choice0).channel_ids.length =
      (M_SL_generate_shapelet sq0 false 4 0 [[[10, 20, 30, 40]]] [2, 2] [2, 1]
        [false, false] [1, 1] choice0).n_channels.sum ∧
    (M_SL_generate_shapelet sq0 false 4 0 [[[10, 20, 30, 40]]] [2, 2] [2, 1]
      [false, false] [1, 1] choice0).values.length =
      (((M_SL_generate_shapelet sq0 false 4 0 [[[10, 20, 30, 40]]] [2, 2] [2, 1]
        [false, false] [1, 1] choice0).n_channels.zip
        (M_SL_generate_shapelet sq0 false 4 0 [[[10, 20, 30, 40]]] [2, 2] [2, 1]
          [false, false] [1, 1] choice0).lengths).map (fun p => p.1 * p.2)).sum :=
  C10_generator_buffer_sizes sq0 false 4 0 [[[10, 20, 30, 40]]] [2, 2] [2, 1]
    [false, false] [1, 1] choice0 _ (by decide) rfl

/-- Witness for C3 at a concrete input: a single length-1 shapelet on a
single two-timestamp sample. -/
theorem C3_applier_preserves_original_indices_witness :
    [((M_SL_apply_all_shapelets dist0 sq0 false [[[5, 7]]] oneShapelet).getD 0 []).getD 0 0,
     ((M_SL_apply_all_shapelets dist0 sq0 false [[[5, 7]]] oneShapelet).getD 0 []).getD 1 0,
     ((M_SL_apply_all_shapelets dist0 sq0 false [[[5, 7]]] oneShapelet).getD 0 []).getD 2 0] =
      shapeletFeatures dist0 sq0 false (([[[5, 7]]] : List (List (List ℚ))).getD 0 []) oneShapelet 0 :=
  C3_applier_preserves_original_indices dist0 sq0 false [[[5, 7]]] oneShapelet 0 0
    (by decide) (by decide) (by decide)

end Convst
